import Mathlib

/-!
# Speed test client and server (`bin/speed_client.c`, `bin/speed_server.c`)

A shallow embedding of the per-stream callbacks of the speed test programs.

* `uint64_t` / `size_t` values are natural numbers below `2 ^ 64`; additions and
  subtractions on them are taken modulo `2 ^ 64` (`add64`, `sub64`).
* `struct timeval` is a pair of integers; differences of timestamps are computed
  in `Int` (the C arithmetic is on `long`, where overflow is undefined).
* The transport engine is an input: each callback receives what the engine call
  made inside it did (the counts it pulled and the value it returned), and
  gives back the new context together with the engine calls and log lines it
  issued, in program order.
* `double` is IEEE 754 binary64 over the rationals (namespace `Ieee`); it is
  used for the two floating-point fields of the server's result message.
-/

/-- The modulus of `uint64_t` arithmetic. -/
def U64 : Nat := 2 ^ 64

/-- Addition of two `uint64_t` values. -/
def add64 (a b : Nat) : Nat := (a + b) % U64

/-- Subtraction of two `uint64_t` values (wraps around below zero). -/
def sub64 (a b : Nat) : Nat := (a % U64 + U64 - b % U64) % U64

/-- The C `struct timeval`. -/
structure timeval where
  tv_sec : Int
  tv_usec : Int
deriving DecidableEq, Repr

/-- Calls a callback makes into the engine (or the program loop). -/
inductive EngineCall where
  | wantread (enable : Nat)
  | wantwrite (enable : Nat)
  | shutdown (how : Nat)
  | stream_close
  | conn_close
  | prog_stop
deriving DecidableEq, Repr

/-- The C character with code 0. -/
def NUL : Char := Char.ofNat 0

namespace SpeedClient

/-- The constant `SEND_BUF_SIZE`: 64 KiB. -/
def SEND_BUF_SIZE : Nat := 64 * 1024

/-- The sender part of `struct lsquic_stream_ctx` in `speed_client.c`. -/
structure lsquic_stream_ctx where
  bytes_to_send : Nat
  bytes_sent : Nat
  start_time : timeval
  end_time : timeval
  result_buf : List Char
  result_off : Nat
  sending_done : Int
deriving DecidableEq, Repr

/-- Log lines of the client callbacks that the claims refer to. -/
inductive LogLine where
  | write_error
  | progress (bytes_sent : Nat)
  | sent (bytes_sent : Nat)
  | server_reply (text : List Char)
  | read_error
deriving DecidableEq, Repr

/-- What one callback did: engine calls and log lines, each in program order. -/
structure Out where
  calls : List EngineCall
  logs : List LogLine
deriving DecidableEq, Repr

/-- The function `random_reader_size`: how much the reader offers. -/
def random_reader_size (st_h : lsquic_stream_ctx) : Nat :=
  let remaining := sub64 st_h.bytes_to_send st_h.bytes_sent
  if remaining > SEND_BUF_SIZE then SEND_BUF_SIZE else remaining

/-- The function `random_reader_read`: clamps `count`, advances `bytes_sent`,
returns the clamped count.  The payload bytes copied are not modelled. -/
def random_reader_read (st_h : lsquic_stream_ctx) (count : Nat) :
    lsquic_stream_ctx × Nat :=
  let remaining := sub64 st_h.bytes_to_send st_h.bytes_sent
  let count1 := if count > remaining then remaining else count
  let count2 := if count1 > SEND_BUF_SIZE then SEND_BUF_SIZE else count1
  ({ st_h with bytes_sent := add64 st_h.bytes_sent count2 }, count2)

/-- The context `client_on_new_stream` builds for a non-null stream:
`calloc` zeroes it, then the target and the start time are filled in. -/
def new_stream_ctx (g_bytes_to_send : Nat) (now : timeval) : lsquic_stream_ctx :=
  { bytes_to_send := g_bytes_to_send
    bytes_sent := 0
    start_time := now
    end_time := ⟨0, 0⟩
    result_buf := List.replicate 512 NUL
    result_off := 0
    sending_done := 0 }

/-- The function `client_on_new_stream`; `stream_ok = false` is the null
stream, for which the connection is closed and no context is made. -/
def client_on_new_stream (g_bytes_to_send : Nat) (stream_ok : Bool) (now : timeval) :
    Option lsquic_stream_ctx × List EngineCall :=
  if stream_ok then
    (some (new_stream_ctx g_bytes_to_send now), [EngineCall.wantwrite 1])
  else
    (none, [EngineCall.conn_close])

/-- What `lsquic_stream_writef` does during one call: the counts it passes to
`lsqr_read`, in order, and the value it returns. -/
structure Writef where
  pulls : List Nat
  nw : Int
deriving DecidableEq, Repr

/-- The reader calls of one `lsquic_stream_writef`. -/
def run_pulls (st_h : lsquic_stream_ctx) (pulls : List Nat) : lsquic_stream_ctx :=
  pulls.foldl (fun s c => (random_reader_read s c).1) st_h

/-- The function `client_on_write`.  `last_report` is the function-local
`static` variable, threaded through as part of the state. -/
def client_on_write (last_report : Nat) (st_h : lsquic_stream_ctx) (w : Writef)
    (now : timeval) : Nat × lsquic_stream_ctx × Out :=
  let st1 := run_pulls st_h w.pulls
  if w.nw < 0 then
    (last_report, st1, ⟨[EngineCall.stream_close], [LogLine.write_error]⟩)
  else
    let report := decide (sub64 st1.bytes_sent last_report ≥ 100 * 1024 * 1024)
    let last_report1 := if report then st1.bytes_sent else last_report
    let logs1 := if report then [LogLine.progress st1.bytes_sent] else []
    if st1.bytes_sent ≥ st1.bytes_to_send then
      let st2 := { st1 with end_time := now, sending_done := 1 }
      (last_report1, st2,
        ⟨[EngineCall.wantwrite 0, EngineCall.shutdown 1, EngineCall.wantread 1],
         logs1 ++ [LogLine.sent st2.bytes_sent]⟩)
    else
      (last_report1, st1, ⟨[], logs1⟩)

/-- A transport stub that accepts the whole offered chunk: it asks
`lsqr_size`, pulls that many bytes with one `lsqr_read`, and returns what the
reader gave. -/
def full_accept (st_h : lsquic_stream_ctx) : Writef :=
  let n := random_reader_size st_h
  { pulls := [n], nw := ((random_reader_read st_h n).2 : Int) }

/-- The sender together with the `static` report anchor of `client_on_write`. -/
structure Sender where
  last_report : Nat
  ctx : lsquic_stream_ctx
deriving DecidableEq, Repr

/-- One writable callback against the full-accept stub. -/
def step_full (s : Sender) (now : timeval) : Sender × Out :=
  let r := client_on_write s.last_report s.ctx (full_accept s.ctx) now
  (⟨r.1, r.2.1⟩, r.2.2)

/-- The sender after `k` writable callbacks against the full-accept stub; the
`i`-th callback (counted from 0) runs at time `clock i`. -/
def run_full (clock : Nat → timeval) : Nat → Sender → Sender
  | 0, s => s
  | k + 1, s => (step_full (run_full clock k s) (clock k)).1

/-- What the callback number `k` (counted from 0) issued. -/
def out_full (clock : Nat → timeval) (k : Nat) (s : Sender) : Out :=
  (step_full (run_full clock k s) (clock k)).2

/-- The sender right after `client_on_new_stream`. -/
def fresh (T last_report : Nat) (t0 : timeval) : Sender :=
  ⟨last_report, new_stream_ctx T t0⟩

/-- The clamped count of `random_reader_read`, in closed form. -/
def clamp (st_h : lsquic_stream_ctx) (count : Nat) : Nat :=
  min (min count (st_h.bytes_to_send - st_h.bytes_sent)) SEND_BUF_SIZE

/-- The three engine calls of the completion branch of `client_on_write`. -/
def completion_calls : List EngineCall :=
  [EngineCall.wantwrite 0, EngineCall.shutdown 1, EngineCall.wantread 1]

/-- The number of writable callbacks the sender needs for a target of `T`
bytes against the full-accept stub: `⌈T / 65536⌉`, and one callback for `T = 0`. -/
def calls_needed (T : Nat) : Nat := max 1 ((T + 65535) / 65536)


/-! ### The readable callback of the client -/

/-- A checked store of one character: `none` when the index is outside the array. -/
def buf_write (buf : List Char) (i : Nat) (c : Char) : Option (List Char) :=
  if i < buf.length then some (buf.set i c) else none

/-- A checked `memcpy` into an array at offset `off`: `none` when some byte
would land outside the array. -/
def buf_memcpy (buf : List Char) (off : Nat) (src : List Char) : Option (List Char) :=
  if off + src.length ≤ buf.length then
    some (buf.take off ++ src ++ buf.drop (off + src.length))
  else none

/-- What `lsquic_stream_read` gave: `data bytes` is a return value of
`bytes.length` with those bytes stored at the start of the buffer (the empty
list is the return value 0, the end of the stream); `error` is a negative
return value. -/
inductive StreamRead where
  | data (bytes : List Char)
  | error
deriving DecidableEq, Repr

/-- The value `nr` returned by `lsquic_stream_read`. -/
def StreamRead.nr : StreamRead → Int
  | StreamRead.data bytes => (bytes.length : Int)
  | StreamRead.error => -1

/-- The bytes `lsquic_stream_read` stored in the caller's buffer. -/
def StreamRead.bytes : StreamRead → List Char
  | StreamRead.data bytes => bytes
  | StreamRead.error => []

/-- The function `client_on_read`.  Stores into the local `buf[256]` and into
`result_buf` are checked: the result is `none` when one of them falls outside
its array. -/
def client_on_read (st_h : lsquic_stream_ctx) (r : StreamRead) :
    Option (lsquic_stream_ctx × Out) :=
  let nr := r.nr
  if nr > 0 then
    if ¬ (nr.toNat < 256) then none
    else if add64 st_h.result_off nr.toNat < 512 then
      match buf_memcpy st_h.result_buf st_h.result_off r.bytes with
      | none => none
      | some b1 =>
        let off := add64 st_h.result_off nr.toNat
        match buf_write b1 off NUL with
        | none => none
        | some b2 => some ({ st_h with result_buf := b2, result_off := off }, ⟨[], []⟩)
    else some (st_h, ⟨[], []⟩)
  else if nr = 0 then
    some (st_h, ⟨[EngineCall.shutdown 0, EngineCall.conn_close],
      [LogLine.server_reply st_h.result_buf]⟩)
  else
    some (st_h, ⟨[EngineCall.stream_close], [LogLine.read_error]⟩)

/-- Drives `client_on_read` with a sequence of reads, stopping at the first
store outside an array. -/
def client_reads : lsquic_stream_ctx → List StreamRead → Option lsquic_stream_ctx
  | st_h, [] => some st_h
  | st_h, r :: rs =>
    match client_on_read st_h r with
    | none => none
    | some p => client_reads p.1 rs

end SpeedClient

namespace SpeedClient

/-- The reply buffer is in order: the offset is inside the 512-byte array and
the byte at the offset is the terminating NUL. -/
def reply_ok (st_h : lsquic_stream_ctx) : Prop :=
  st_h.result_off < 512 ∧ st_h.result_buf.length = 512 ∧
    st_h.result_buf[st_h.result_off]? = some NUL

end SpeedClient

namespace SpeedServer

/-- The constant `REPORT_INTERVAL_BYTES`: 100 MiB. -/
def REPORT_INTERVAL_BYTES : Nat := 100 * 1024 * 1024

/-- The constant `REPORT_INTERVAL_USEC`: one second. -/
def REPORT_INTERVAL_USEC : Int := 1000000

/-- The part of `struct server_ctx` the callbacks use: the connection
contexts in the tail queue (by connection id) and the counter `n_conn`. -/
structure server_ctx where
  conn_ctxs : List Nat
  n_conn : Int
deriving DecidableEq, Repr

/-- The receiver part of `struct lsquic_stream_ctx` in `speed_server.c`. -/
structure lsquic_stream_ctx where
  bytes_received : Nat
  last_report_bytes : Nat
  start_time : timeval
  last_report_time : timeval
  end_time : timeval
  result_buf : List Char
  result_len : Nat
  result_off : Nat
deriving DecidableEq, Repr

/-- Log lines of the server callbacks.  A progress sample carries the bytes
since the anchor and the two elapsed times its throughput figures divide by,
both in microseconds: `interval_usec` is `usec_since_report` (the code divides
by `usec_since_report / 1000000.0`) and `total_usec` is the time since
`start_time` (the code divides by `total_elapsed`, the same time in seconds). -/
inductive LogLine where
  | closed_remaining (n_conn : Int)
  | closed
  | progress (bytes_received bytes_since : Nat) (interval_usec total_usec : Int)
  | complete (bytes_received : Nat)
  | read_error
  | write_error
deriving DecidableEq, Repr

/-- What one callback did: engine calls and log lines, each in program order. -/
structure Out where
  calls : List EngineCall
  logs : List LogLine
deriving DecidableEq, Repr

/-- The function `server_on_new_conn`. -/
def server_on_new_conn (ctx : server_ctx) (conn : Nat) : server_ctx :=
  { ctx with conn_ctxs := ctx.conn_ctxs ++ [conn] }

/-- The function `server_on_conn_closed`. -/
def server_on_conn_closed (ctx : server_ctx) (conn : Nat) : server_ctx × Out :=
  if ctx.n_conn ≠ 0 then
    let n := ctx.n_conn - 1
    ({ conn_ctxs := ctx.conn_ctxs.erase conn, n_conn := n },
      ⟨if 0 = n then [EngineCall.prog_stop] else [], [LogLine.closed_remaining n]⟩)
  else
    ({ ctx with conn_ctxs := ctx.conn_ctxs.erase conn }, ⟨[], [LogLine.closed]⟩)

/-- The server context `main` sets up for `-n N`. -/
def server_init (N : Int) : server_ctx := { conn_ctxs := [], n_conn := N }

/-- Drives `server_on_conn_closed` with a sequence of closing connections and
collects what each callback issued. -/
def closes : server_ctx → List Nat → server_ctx × List Out
  | ctx, [] => (ctx, [])
  | ctx, c :: cs =>
    let r := server_on_conn_closed ctx c
    let rest := closes r.1 cs
    (rest.1, r.2 :: rest.2)

/-- The function `server_on_new_stream`. -/
def server_on_new_stream (now : timeval) : lsquic_stream_ctx × List EngineCall :=
  ({ bytes_received := 0
     last_report_bytes := 0
     start_time := now
     last_report_time := now
     end_time := ⟨0, 0⟩
     result_buf := List.replicate 256 NUL
     result_len := 0
     result_off := 0 }, [EngineCall.wantread 1])

/-- Microseconds from `a` to `b`, as `server_on_read` computes
`usec_since_report`. -/
def usec_between (a b : timeval) : Int :=
  (b.tv_sec - a.tv_sec) * 1000000 + (b.tv_usec - a.tv_usec)

/-- The texts `%.3f` and `%.2f` produce for the two `double` values `elapsed`
and `mbps` at the end of the stream.  `server_on_read` takes them as an
argument, so that what does not depend on floating point is shown for every
rendering; `float_text` below computes them the way the program does. -/
structure FloatText where
  time : List Char
  speed : List Char
deriving DecidableEq, Repr

/-- The text of the format
`"RESULT: bytes=%"PRIu64" time=%.3fs speed=%.2fMbps\n"`. -/
def result_text (bytes_received : Nat) (ft : FloatText) : List Char :=
  "RESULT: bytes=".toList ++ Nat.toDigits 10 bytes_received ++ " time=".toList ++ ft.time ++
    "s speed=".toList ++ ft.speed ++ "Mbps\n".toList

/-- The C function `snprintf(buf, size, ...)` for `size > 0`, given the whole
formatted text: stores at most `size - 1` characters and a terminating NUL,
and returns the length of the whole text, also when it was cut. -/
def snprintf (buf : List Char) (size : Nat) (text : List Char) : List Char × Nat :=
  let body := text.take (size - 1)
  (body ++ [NUL] ++ buf.drop (body.length + 1), text.length)

/-- The function `server_on_read`; `nr` is what `lsquic_stream_read` returned,
`now` what `gettimeofday` gives in this call, and `ft` the formatted `elapsed`
and `mbps` (the program's own values are `float_text st_h now`). -/
def server_on_read (st_h : lsquic_stream_ctx) (nr : Int) (now : timeval) (ft : FloatText) :
    lsquic_stream_ctx × Out :=
  if nr > 0 then
    let st1 := { st_h with bytes_received := add64 st_h.bytes_received nr.toNat }
    let bytes_since_report := sub64 st1.bytes_received st1.last_report_bytes
    let usec_since_report := usec_between st1.last_report_time now
    if bytes_since_report ≥ REPORT_INTERVAL_BYTES ∨ usec_since_report ≥ REPORT_INTERVAL_USEC then
      ({ st1 with last_report_bytes := st1.bytes_received, last_report_time := now },
        ⟨[], [LogLine.progress st1.bytes_received bytes_since_report usec_since_report
          (usec_between st1.start_time now)]⟩)
    else (st1, ⟨[], []⟩)
  else if nr = 0 then
    let r := snprintf st_h.result_buf 256 (result_text st_h.bytes_received ft)
    ({ st_h with end_time := now, result_buf := r.1, result_len := r.2, result_off := 0 },
      ⟨[EngineCall.wantread 0, EngineCall.wantwrite 1], [LogLine.complete st_h.bytes_received]⟩)
  else
    (st_h, ⟨[EngineCall.stream_close], [LogLine.read_error]⟩)

/-- The bytes `server_on_write` passes to `lsquic_stream_write`:
`towrite = result_len - result_off` bytes from `result_buf + result_off`;
`none` when that range is not inside `result_buf`. -/
def offered (st_h : lsquic_stream_ctx) : Option (List Char) :=
  let towrite := sub64 st_h.result_len st_h.result_off
  if st_h.result_off + towrite ≤ st_h.result_buf.length then
    some ((st_h.result_buf.drop st_h.result_off).take towrite)
  else none

/-- The function `server_on_write`; `nw` is what `lsquic_stream_write` returned. -/
def server_on_write (st_h : lsquic_stream_ctx) (nw : Int) : lsquic_stream_ctx × Out :=
  if nw > 0 then
    let st1 := { st_h with result_off := add64 st_h.result_off nw.toNat }
    if st1.result_off ≥ st1.result_len then
      (st1, ⟨[EngineCall.wantwrite 0, EngineCall.shutdown 1], []⟩)
    else (st1, ⟨[], []⟩)
  else
    (st_h, ⟨[EngineCall.stream_close], [LogLine.write_error]⟩)

/-- Drives `server_on_read` with a sequence of reads `(nr, now)` and collects
what each callback issued. -/
def reads (ft : FloatText) : lsquic_stream_ctx → List (Int × timeval) →
    lsquic_stream_ctx × List Out
  | st_h, [] => (st_h, [])
  | st_h, r :: rs =>
    let s := server_on_read st_h r.1 r.2 ft
    let rest := reads ft s.1 rs
    (rest.1, s.2 :: rest.2)

end SpeedServer

namespace SpeedServer

/-- How many times a run of callbacks called `prog_stop`. -/
def stop_count (outs : List Out) : Nat :=
  (outs.map (fun o => o.calls.count EngineCall.prog_stop)).sum

end SpeedServer

/-! ### The C type `double`

IEEE 754 binary64 with round-to-nearest-even, as on x86-64: a value is a sign
bit and a magnitude, the magnitude being a rational number, infinity or NaN.
An invalid operation gives the default NaN of that platform, which has the
sign bit set. -/

namespace Ieee

/-- The magnitude of a `double`: a non-negative rational, infinity or NaN. -/
inductive Mag where
  | fin (m : ℚ)
  | inf
  | nan
deriving DecidableEq

/-- A `double`: sign bit and magnitude. -/
structure Double where
  neg : Bool
  mag : Mag
deriving DecidableEq

/-- Rounds a non-negative rational to the nearest natural number, halves to even. -/
def round_half_even (y : ℚ) : ℕ :=
  if y - (⌊y⌋₊ : ℚ) < 1 / 2 then ⌊y⌋₊
  else if 1 / 2 < y - (⌊y⌋₊ : ℚ) then ⌊y⌋₊ + 1
  else if ⌊y⌋₊ % 2 = 0 then ⌊y⌋₊ else ⌊y⌋₊ + 1

/-- The exponent of the binade a positive rational is rounded in: its binary
exponent, or `-1022` in the subnormal range. -/
def binade (m : ℚ) : ℤ := max (Int.log 2 m) (-1022)

/-- The spacing of the binary64 values around a positive rational `m`. -/
def ulp (m : ℚ) : ℚ := (2 : ℚ) ^ (binade m - 52)

/-- Rounds a magnitude to binary64: to the nearest multiple of the spacing of
its binade, halves to even; what comes out at `2 ^ 1024` or above is infinity. -/
def round (m : ℚ) : Mag :=
  if m ≤ 0 then Mag.fin 0
  else if (2 : ℚ) ^ (1024 : ℤ) ≤ (round_half_even (m / ulp m) : ℚ) * ulp m then Mag.inf
  else Mag.fin ((round_half_even (m / ulp m) : ℚ) * ulp m)

/-- The NaN an invalid operation produces. -/
def default_nan : Double := ⟨true, Mag.nan⟩

/-- The conversion of a `long` to `double`. -/
def of_int (i : ℤ) : Double := ⟨decide (i < 0), round |(i : ℚ)|⟩

/-- The conversion of a `uint64_t` to `double`. -/
def of_nat (n : ℕ) : Double := ⟨false, round (n : ℚ)⟩

/-- A constant such as `8.0` or `1000000.0` that binary64 holds exactly. -/
def lit (n : ℕ) : Double := ⟨false, Mag.fin (n : ℚ)⟩

/-- The rational a sign and a finite magnitude stand for. -/
def signed (neg : Bool) (m : ℚ) : ℚ := if neg then -m else m

/-- Addition of two `double`s. -/
def add (a b : Double) : Double :=
  match a.mag with
  | Mag.nan => a
  | Mag.inf =>
    match b.mag with
    | Mag.nan => b
    | Mag.inf => if a.neg = b.neg then a else default_nan
    | Mag.fin _ => a
  | Mag.fin x =>
    match b.mag with
    | Mag.nan => b
    | Mag.inf => b
    | Mag.fin y =>
      if signed a.neg x + signed b.neg y = 0 then ⟨a.neg && b.neg, Mag.fin 0⟩
      else ⟨decide (signed a.neg x + signed b.neg y < 0),
        round |signed a.neg x + signed b.neg y|⟩

/-- Multiplication of two `double`s. -/
def mul (a b : Double) : Double :=
  match a.mag with
  | Mag.nan => a
  | Mag.inf =>
    match b.mag with
    | Mag.nan => b
    | Mag.inf => ⟨xor a.neg b.neg, Mag.inf⟩
    | Mag.fin y => if y = 0 then default_nan else ⟨xor a.neg b.neg, Mag.inf⟩
  | Mag.fin x =>
    match b.mag with
    | Mag.nan => b
    | Mag.inf => if x = 0 then default_nan else ⟨xor a.neg b.neg, Mag.inf⟩
    | Mag.fin y => ⟨xor a.neg b.neg, round (x * y)⟩

/-- Division of two `double`s. -/
def div (a b : Double) : Double :=
  match a.mag with
  | Mag.nan => a
  | Mag.inf =>
    match b.mag with
    | Mag.nan => b
    | Mag.inf => default_nan
    | Mag.fin _ => ⟨xor a.neg b.neg, Mag.inf⟩
  | Mag.fin x =>
    match b.mag with
    | Mag.nan => b
    | Mag.inf => ⟨xor a.neg b.neg, Mag.fin 0⟩
    | Mag.fin y =>
      if y = 0 then (if x = 0 then default_nan else ⟨xor a.neg b.neg, Mag.inf⟩)
      else ⟨xor a.neg b.neg, round (x / y)⟩

/-- The `p` digits after the decimal point: `n` in decimal, padded with zeros on the left. -/
def frac_digits (p n : ℕ) : List Char :=
  List.replicate (p - (Nat.toDigits 10 n).length) '0' ++ Nat.toDigits 10 n

/-- The digits `printf` writes for a magnitude under `%.pf`. -/
def fmt_mag (p : ℕ) : Mag → List Char
  | Mag.nan => "nan".toList
  | Mag.inf => "inf".toList
  | Mag.fin m =>
    Nat.toDigits 10 (round_half_even (m * 10 ^ p) / 10 ^ p) ++ ['.'] ++
      frac_digits p (round_half_even (m * 10 ^ p) % 10 ^ p)

/-- The text `printf` writes for a `double` under `%.pf`, for `p > 0`. -/
def fmt_f (p : ℕ) (d : Double) : List Char :=
  (if d.neg then ['-'] else []) ++ fmt_mag p d.mag

end Ieee

namespace SpeedServer

/-- The `double` `elapsed` of `server_on_read`: seconds from `start` to `stop`. -/
def elapsed (start stop : timeval) : Ieee.Double :=
  Ieee.add (Ieee.of_int (stop.tv_sec - start.tv_sec))
    (Ieee.div (Ieee.of_int (stop.tv_usec - start.tv_usec)) (Ieee.lit 1000000))

/-- The `double` `mbps` of `server_on_read`. -/
def mbps (bytes_received : Nat) (el : Ieee.Double) : Ieee.Double :=
  Ieee.div (Ieee.mul (Ieee.of_nat bytes_received) (Ieee.lit 8)) (Ieee.mul el (Ieee.lit 1000000))

/-- The two floating-point fields of the result as `server_on_read` computes
and formats them when the end of the stream is read at time `now`. -/
def float_text (st_h : lsquic_stream_ctx) (now : timeval) : FloatText :=
  { time := Ieee.fmt_f 3 (elapsed st_h.start_time now)
    speed := Ieee.fmt_f 2 (mbps st_h.bytes_received (elapsed st_h.start_time now)) }

end SpeedServer

/-! ### Interest flags of a stream -/

/-- The read-interest and write-interest of one stream, as the engine keeps them. -/
structure Interest where
  read : Bool
  write : Bool
deriving DecidableEq, Repr

/-- The effect of one engine call on the interest flags of the stream: only
`lsquic_stream_wantread` and `lsquic_stream_wantwrite` update them. -/
def apply_call (f : Interest) : EngineCall → Interest
  | EngineCall.wantread enable => { f with read := decide (enable ≠ 0) }
  | EngineCall.wantwrite enable => { f with write := decide (enable ≠ 0) }
  | EngineCall.stream_close => f
  | EngineCall.shutdown _ => f
  | EngineCall.conn_close => f
  | EngineCall.prog_stop => f

/-- The interest flags after each call of a sequence of engine calls, in order. -/
def flag_states : Interest → List EngineCall → List Interest
  | _, [] => []
  | f, c :: cs => apply_call f c :: flag_states (apply_call f c) cs

namespace SpeedClient

/-- The number of bytes the reader hands out over the reader calls of one
`lsquic_stream_writef`. -/
def pull_total : lsquic_stream_ctx → List Nat → Nat
  | _, [] => 0
  | st_h, c :: cs =>
    (random_reader_read st_h c).2 + pull_total (random_reader_read st_h c).1 cs

/-- The chunks of a sequence that `client_on_read` stores when the first of
them arrives at offset `off`: a chunk with `off + length ≥ 512` is left out,
the ones after it are still looked at. -/
def kept : Nat → List (List Char) → List (List Char)
  | _, [] => []
  | off, c :: cs =>
    if off + c.length < 512 then c :: kept (off + c.length) cs else kept off cs

/-- A readiness callback delivered to one client stream. -/
inductive ClientEvent where
  | on_write (w : Writef) (now : timeval)
  | on_read (r : StreamRead)
deriving DecidableEq, Repr

/-- The engine calls a client stream issues over a sequence of callbacks, in
order (the run ends at a store outside an array). -/
def client_stream_calls : Sender → List ClientEvent → List EngineCall
  | _, [] => []
  | s, ClientEvent.on_write w now :: es =>
    (client_on_write s.last_report s.ctx w now).2.2.calls ++
      client_stream_calls ⟨(client_on_write s.last_report s.ctx w now).1,
        (client_on_write s.last_report s.ctx w now).2.1⟩ es
  | s, ClientEvent.on_read r :: es =>
    match client_on_read s.ctx r with
    | none => []
    | some p => p.2.calls ++ client_stream_calls ⟨s.last_report, p.1⟩ es

/-- The multiplication of two `uint64_t` values. -/
def mul64 (a b : Nat) : Nat := (a * b) % U64

/-- The C predicate `isspace` in the C locale. -/
def is_space (c : Char) : Bool := c.toNat = 32 || (9 ≤ c.toNat && c.toNat ≤ 13)

/-- The decimal digits `0` to `9`. -/
def is_digit (c : Char) : Bool := 48 ≤ c.toNat && c.toNat ≤ 57

/-- The number a string of decimal digits denotes. -/
def decimal_value (ds : List Char) : Nat :=
  ds.foldl (fun a c => a * 10 + (c.toNat - 48)) 0

/-- The C library function `strtoull(str, &end, 10)`: skips white space, takes
an optional sign and then the longest run of digits; gives the value and the
rest of the string.  Without a digit nothing is converted.  A value of
`2 ^ 64` or more comes out as `ULLONG_MAX`; a minus sign negates modulo
`2 ^ 64`. -/
def strtoull (str : List Char) : Nat × List Char :=
  let s1 := str.dropWhile is_space
  let neg := decide (s1.head? = some '-')
  let s2 := if s1.head? = some '-' ∨ s1.head? = some '+' then s1.tail else s1
  let ds := s2.takeWhile is_digit
  if ds = [] then (0, str)
  else if U64 ≤ decimal_value ds then (U64 - 1, s2.dropWhile is_digit)
  else if neg then (sub64 0 (decimal_value ds), s2.dropWhile is_digit)
  else (decimal_value ds, s2.dropWhile is_digit)

/-- The function `parse_size`; `*end` past the last character is the NUL. -/
def parse_size (str : List Char) : Nat :=
  let val := (strtoull str).1
  let e := (strtoull str).2.headD NUL
  if e = 'K' ∨ e = 'k' then mul64 val 1024
  else if e = 'M' ∨ e = 'm' then mul64 val (1024 * 1024)
  else if e = 'G' ∨ e = 'g' then mul64 val (1024 * 1024 * 1024)
  else val

end SpeedClient

namespace SpeedServer

/-- One call of `server_on_write` in a run: the offset before the call, the
bytes passed to `lsquic_stream_write`, the bytes the engine took, and the
engine calls the callback issued. -/
structure WriteStep where
  off : Nat
  offered : Option (List Char)
  accepted : List Char
  calls : List EngineCall
deriving DecidableEq, Repr

/-- Drives `server_on_write` with an engine that takes `n` bytes in each call. -/
def writes : lsquic_stream_ctx → List Nat → lsquic_stream_ctx × List WriteStep
  | st_h, [] => (st_h, [])
  | st_h, n :: ns =>
    ((writes (server_on_write st_h (n : Int)).1 ns).1,
      { off := st_h.result_off
        offered := offered st_h
        accepted := ((offered st_h).getD []).take n
        calls := (server_on_write st_h (n : Int)).2.calls } ::
        (writes (server_on_write st_h (n : Int)).1 ns).2)

/-- The engine takes a positive number of bytes in each call and never more
than what is left between the offset and `L`. -/
def accepts_ok (off L : Nat) : List Nat → Prop
  | [] => True
  | n :: ns => 0 < n ∧ off + n ≤ L ∧ accepts_ok (off + n) L ns

/-- A readiness callback delivered to one server stream. -/
inductive ServerEvent where
  | on_read (nr : Int) (now : timeval) (ft : FloatText)
  | on_write (nw : Int)
deriving DecidableEq, Repr

/-- The engine calls a server stream issues over a sequence of callbacks, in order. -/
def server_stream_calls : lsquic_stream_ctx → List ServerEvent → List EngineCall
  | _, [] => []
  | st_h, ServerEvent.on_read nr now ft :: es =>
    (server_on_read st_h nr now ft).2.calls ++
      server_stream_calls (server_on_read st_h nr now ft).1 es
  | st_h, ServerEvent.on_write nw :: es =>
    (server_on_write st_h nw).2.calls ++ server_stream_calls (server_on_write st_h nw).1 es

end SpeedServer

/-! ## Arithmetic on `uint64_t` -/

theorem sub64_of_le {a b : Nat} (hba : b ≤ a) (ha : a < U64) : sub64 a b = a - b := by
  have hb : b < U64 := lt_of_le_of_lt hba ha
  unfold sub64
  rw [Nat.mod_eq_of_lt ha, Nat.mod_eq_of_lt hb]
  have h1 : a + U64 - b = (a - b) + U64 := by omega
  rw [h1, Nat.add_mod_right]
  exact Nat.mod_eq_of_lt (by omega)

theorem add64_of_lt {a b : Nat} (h : a + b < U64) : add64 a b = a + b :=
  Nat.mod_eq_of_lt h

namespace SpeedClient

/-! ## The reader -/

theorem random_reader_read_snd (st_h : lsquic_stream_ctx) (count : Nat)
    (h1 : st_h.bytes_sent ≤ st_h.bytes_to_send) (h2 : st_h.bytes_to_send < U64) :
    (random_reader_read st_h count).2 = clamp st_h count := by
  simp only [random_reader_read, clamp, sub64_of_le h1 h2]
  split_ifs <;> omega

theorem random_reader_read_fst (st_h : lsquic_stream_ctx) (count : Nat)
    (h1 : st_h.bytes_sent ≤ st_h.bytes_to_send) (h2 : st_h.bytes_to_send < U64) :
    (random_reader_read st_h count).1 =
      { st_h with bytes_sent := st_h.bytes_sent + clamp st_h count } := by
  have h := random_reader_read_snd st_h count h1 h2
  have hc : clamp st_h count ≤ st_h.bytes_to_send - st_h.bytes_sent := by
    unfold clamp; omega
  have e : (random_reader_read st_h count).1 =
      { st_h with bytes_sent := add64 st_h.bytes_sent (random_reader_read st_h count).2 } := rfl
  rw [e, h, add64_of_lt (by omega)]

theorem random_reader_size_eq (st_h : lsquic_stream_ctx)
    (h1 : st_h.bytes_sent ≤ st_h.bytes_to_send) (h2 : st_h.bytes_to_send < U64) :
    random_reader_size st_h = min (st_h.bytes_to_send - st_h.bytes_sent) SEND_BUF_SIZE := by
  simp only [random_reader_size, sub64_of_le h1 h2]
  split_ifs <;> omega

end SpeedClient

namespace SpeedClient

/-! ## The writable callback against the full-accept stub -/

theorem clamp_size (st_h : lsquic_stream_ctx)
    (h1 : st_h.bytes_sent ≤ st_h.bytes_to_send) (h2 : st_h.bytes_to_send < U64) :
    st_h.bytes_sent + clamp st_h (random_reader_size st_h) =
      min st_h.bytes_to_send (st_h.bytes_sent + SEND_BUF_SIZE) := by
  rw [random_reader_size_eq st_h h1 h2]
  unfold clamp
  omega

theorem step_full_ctx (s : Sender) (now : timeval)
    (h1 : s.ctx.bytes_sent ≤ s.ctx.bytes_to_send) (h2 : s.ctx.bytes_to_send < U64) :
    (step_full s now).1.ctx =
      if s.ctx.bytes_to_send ≤ s.ctx.bytes_sent + SEND_BUF_SIZE then
        { s.ctx with bytes_sent := s.ctx.bytes_to_send, end_time := now, sending_done := 1 }
      else
        { s.ctx with bytes_sent := s.ctx.bytes_sent + SEND_BUF_SIZE } := by
  have hs := clamp_size s.ctx h1 h2
  simp only [step_full, client_on_write, full_accept, run_pulls, List.foldl_cons, List.foldl_nil,
    random_reader_read_fst s.ctx _ h1 h2, random_reader_read_snd s.ctx _ h1 h2, hs]
  have hn : ¬ ((clamp s.ctx (random_reader_size s.ctx) : Nat) : Int) < 0 := by omega
  rw [if_neg hn]
  by_cases hc : s.ctx.bytes_to_send ≤ s.ctx.bytes_sent + SEND_BUF_SIZE
  · have hm : min s.ctx.bytes_to_send (s.ctx.bytes_sent + SEND_BUF_SIZE) = s.ctx.bytes_to_send :=
      Nat.min_eq_left hc
    simp [hm, hc]
  · have hm : min s.ctx.bytes_to_send (s.ctx.bytes_sent + SEND_BUF_SIZE)
        = s.ctx.bytes_sent + SEND_BUF_SIZE := Nat.min_eq_right (by omega)
    have hlt : ¬ s.ctx.bytes_to_send ≤ s.ctx.bytes_sent + SEND_BUF_SIZE := hc
    simp [hm, hc]

theorem step_full_calls (s : Sender) (now : timeval)
    (h1 : s.ctx.bytes_sent ≤ s.ctx.bytes_to_send) (h2 : s.ctx.bytes_to_send < U64) :
    (step_full s now).2.calls =
      if s.ctx.bytes_to_send ≤ s.ctx.bytes_sent + SEND_BUF_SIZE then completion_calls
      else [] := by
  have hs := clamp_size s.ctx h1 h2
  simp only [step_full, client_on_write, full_accept, run_pulls, List.foldl_cons, List.foldl_nil,
    random_reader_read_fst s.ctx _ h1 h2, random_reader_read_snd s.ctx _ h1 h2, hs]
  have hn : ¬ ((clamp s.ctx (random_reader_size s.ctx) : Nat) : Int) < 0 := by omega
  rw [if_neg hn]
  by_cases hc : s.ctx.bytes_to_send ≤ s.ctx.bytes_sent + SEND_BUF_SIZE
  · have hm : min s.ctx.bytes_to_send (s.ctx.bytes_sent + SEND_BUF_SIZE) = s.ctx.bytes_to_send :=
      Nat.min_eq_left hc
    simp [hm, hc, completion_calls]
  · have hm : min s.ctx.bytes_to_send (s.ctx.bytes_sent + SEND_BUF_SIZE)
        = s.ctx.bytes_sent + SEND_BUF_SIZE := Nat.min_eq_right (by omega)
    simp [hm, hc]

end SpeedClient

namespace SpeedClient

/-- The context after `k` callbacks against the full-accept stub, in closed form. -/
theorem run_full_ctx (clock : Nat → timeval) (T lr : Nat) (t0 : timeval) (hT : T < U64)
    (k : Nat) :
    (run_full clock k (fresh T lr t0)).ctx.bytes_to_send = T ∧
    (run_full clock k (fresh T lr t0)).ctx.bytes_sent = min T (SEND_BUF_SIZE * k) ∧
    (run_full clock k (fresh T lr t0)).ctx.sending_done =
      if 1 ≤ k ∧ T ≤ SEND_BUF_SIZE * k then 1 else 0 := by
  induction k with
  | zero =>
    refine ⟨rfl, ?_, ?_⟩
    · show 0 = min T (SEND_BUF_SIZE * 0)
      simp
    · show (0 : Int) = _
      simp
  | succ k ih =>
    obtain ⟨ih1, ih2, ih3⟩ := ih
    have h1 : (run_full clock k (fresh T lr t0)).ctx.bytes_sent ≤
        (run_full clock k (fresh T lr t0)).ctx.bytes_to_send := by
      rw [ih1, ih2]; exact Nat.min_le_left _ _
    have h2 : (run_full clock k (fresh T lr t0)).ctx.bytes_to_send < U64 := by
      rw [ih1]; exact hT
    have e : run_full clock (k + 1) (fresh T lr t0) =
        (step_full (run_full clock k (fresh T lr t0)) (clock k)).1 := rfl
    rw [e, step_full_ctx _ _ h1 h2, ih1, ih2]
    simp only [show SEND_BUF_SIZE = 65536 from rfl] at *
    by_cases hc : T ≤ min T (65536 * k) + 65536
    · rw [if_pos hc]
      refine ⟨ih1, ?_, ?_⟩
      · show T = min T (65536 * (k + 1))
        omega
      · show (1 : Int) = _
        rw [if_pos]
        constructor <;> omega
    · rw [if_neg hc]
      refine ⟨ih1, ?_, ?_⟩
      · show min T (65536 * k) + 65536 = min T (65536 * (k + 1))
        omega
      · show (run_full clock k (fresh T lr t0)).ctx.sending_done = _
        rw [ih3, if_neg, if_neg]
        · omega
        · omega

/-- The engine calls of callback number `k` (counted from 0), in closed form. -/
theorem out_full_calls (clock : Nat → timeval) (T lr : Nat) (t0 : timeval) (hT : T < U64)
    (k : Nat) :
    (out_full clock k (fresh T lr t0)).calls =
      if T ≤ SEND_BUF_SIZE * (k + 1) then completion_calls else [] := by
  obtain ⟨ih1, ih2, -⟩ := run_full_ctx clock T lr t0 hT k
  have h1 : (run_full clock k (fresh T lr t0)).ctx.bytes_sent ≤
      (run_full clock k (fresh T lr t0)).ctx.bytes_to_send := by
    rw [ih1, ih2]; exact Nat.min_le_left _ _
  have h2 : (run_full clock k (fresh T lr t0)).ctx.bytes_to_send < U64 := by
    rw [ih1]; exact hT
  unfold out_full
  rw [step_full_calls _ _ h1 h2, ih1, ih2]
  simp only [show SEND_BUF_SIZE = 65536 from rfl] at *
  by_cases hc : T ≤ 65536 * (k + 1)
  · rw [if_pos hc, if_pos]; omega
  · rw [if_neg hc, if_neg]; omega

end SpeedClient

namespace SpeedClient

/-- C1 (sender exactness).  For every 64-bit target `T`, whatever the value of
the static report anchor and the clock, driving `client_on_write` against the
full-accept stub from `bytes_sent = 0` takes the completion branch on callback
number `calls_needed T`: after it `sending_done = 1` and `bytes_sent = T`
exactly; before it `sending_done = 0`; and `bytes_sent` never exceeds `T`. -/
theorem sender_exactness (clock : Nat → timeval) (T lr : Nat) (t0 : timeval) (hT : T < U64) :
    (run_full clock (calls_needed T) (fresh T lr t0)).ctx.sending_done = 1 ∧
    (run_full clock (calls_needed T) (fresh T lr t0)).ctx.bytes_sent = T ∧
    (out_full clock (calls_needed T - 1) (fresh T lr t0)).calls =
      [EngineCall.wantwrite 0, EngineCall.shutdown 1, EngineCall.wantread 1] ∧
    (∀ k, k < calls_needed T → (run_full clock k (fresh T lr t0)).ctx.sending_done = 0) ∧
    (∀ k, (run_full clock k (fresh T lr t0)).ctx.bytes_sent ≤ T) := by
  have hB : SEND_BUF_SIZE = 65536 := rfl
  refine ⟨?_, ?_, ?_, ?_, ?_⟩
  · rw [(run_full_ctx clock T lr t0 hT _).2.2, if_pos]
    unfold calls_needed; rw [hB]; constructor <;> omega
  · rw [(run_full_ctx clock T lr t0 hT _).2.1]
    unfold calls_needed; rw [hB]; omega
  · rw [out_full_calls clock T lr t0 hT, if_pos]
    · rfl
    · unfold calls_needed; rw [hB]; omega
  · intro k hk
    rw [(run_full_ctx clock T lr t0 hT _).2.2, if_neg]
    unfold calls_needed at hk; rw [hB]; omega
  · intro k
    rw [(run_full_ctx clock T lr t0 hT _).2.1]
    exact Nat.min_le_left _ _

/-- Witness for C1: a target of 100000 bytes is met exactly on the second callback. -/
theorem sender_exactness_witness :
    (100000 : Nat) < U64 ∧
    (run_full (fun _ => ⟨0, 0⟩) 2 (fresh 100000 0 ⟨0, 0⟩)).ctx.sending_done = 1 ∧
    (run_full (fun _ => ⟨0, 0⟩) 2 (fresh 100000 0 ⟨0, 0⟩)).ctx.bytes_sent = 100000 :=
  ⟨by norm_num [U64],
   (sender_exactness (fun _ => ⟨0, 0⟩) 100000 0 ⟨0, 0⟩ (by norm_num [U64])).1,
   (sender_exactness (fun _ => ⟨0, 0⟩) 100000 0 ⟨0, 0⟩ (by norm_num [U64])).2.1⟩

/-- C2 (sender callback count).  For a target `0 < T < 2 ^ 64` and the
full-accept stub, `bytes_sent ≥ T` first holds after callback number
`⌈T / 65536⌉`: after fewer callbacks `bytes_sent < T` and `sending_done = 0`,
and those earlier callbacks issue no engine call; the `⌈T / 65536⌉`-th callback
sets `sending_done` and issues `wantwrite(0)`, `shutdown(1)`, `wantread(1)`
in this order. -/
theorem sender_callback_count (clock : Nat → timeval) (T lr : Nat) (t0 : timeval)
    (hT0 : 0 < T) (hT : T < U64) :
    (∀ k, k < (T + 65535) / 65536 →
      (run_full clock k (fresh T lr t0)).ctx.bytes_sent < T ∧
      (run_full clock k (fresh T lr t0)).ctx.sending_done = 0) ∧
    (∀ k, k + 1 < (T + 65535) / 65536 → (out_full clock k (fresh T lr t0)).calls = []) ∧
    T ≤ (run_full clock ((T + 65535) / 65536) (fresh T lr t0)).ctx.bytes_sent ∧
    (run_full clock ((T + 65535) / 65536) (fresh T lr t0)).ctx.sending_done = 1 ∧
    (out_full clock ((T + 65535) / 65536 - 1) (fresh T lr t0)).calls =
      [EngineCall.wantwrite 0, EngineCall.shutdown 1, EngineCall.wantread 1] := by
  have hB : SEND_BUF_SIZE = 65536 := rfl
  refine ⟨?_, ?_, ?_, ?_, ?_⟩
  · intro k hk
    rw [(run_full_ctx clock T lr t0 hT _).2.2, (run_full_ctx clock T lr t0 hT _).2.1, hB]
    constructor
    · omega
    · rw [if_neg]; omega
  · intro k hk
    rw [out_full_calls clock T lr t0 hT, if_neg]
    rw [hB]; omega
  · rw [(run_full_ctx clock T lr t0 hT _).2.1, hB]; omega
  · rw [(run_full_ctx clock T lr t0 hT _).2.2, if_pos]
    rw [hB]; constructor <;> omega
  · rw [out_full_calls clock T lr t0 hT, if_pos]
    · rfl
    · rw [hB]; omega

/-- Witness for C2: a target of 10 MiB is reached on exactly the 160th
callback, which issues the three completion calls; the 159th issues none. -/
theorem sender_callback_count_witness :
    (10 * 1024 * 1024 + 65535) / 65536 = 160 ∧
    (run_full (fun _ => ⟨0, 0⟩) 159 (fresh (10 * 1024 * 1024) 0 ⟨0, 0⟩)).ctx.bytes_sent
      < 10 * 1024 * 1024 ∧
    (out_full (fun _ => ⟨0, 0⟩) 158 (fresh (10 * 1024 * 1024) 0 ⟨0, 0⟩)).calls = [] ∧
    10 * 1024 * 1024 ≤
      (run_full (fun _ => ⟨0, 0⟩) 160 (fresh (10 * 1024 * 1024) 0 ⟨0, 0⟩)).ctx.bytes_sent ∧
    (out_full (fun _ => ⟨0, 0⟩) 159 (fresh (10 * 1024 * 1024) 0 ⟨0, 0⟩)).calls =
      [EngineCall.wantwrite 0, EngineCall.shutdown 1, EngineCall.wantread 1] :=
  have h := sender_callback_count (fun _ => ⟨0, 0⟩) (10 * 1024 * 1024) 0 ⟨0, 0⟩
    (by norm_num) (by norm_num [U64])
  ⟨by norm_num, (h.1 159 (by norm_num)).1, h.2.1 158 (by norm_num), h.2.2.1, h.2.2.2.2⟩

end SpeedClient

namespace SpeedClient

/-! ## The reader under arbitrary requested counts -/

theorem run_pulls_inv (counts : List Nat) (st_h : lsquic_stream_ctx)
    (h1 : st_h.bytes_sent ≤ st_h.bytes_to_send) (h2 : st_h.bytes_to_send < U64) :
    (run_pulls st_h counts).bytes_to_send = st_h.bytes_to_send ∧
    st_h.bytes_sent ≤ (run_pulls st_h counts).bytes_sent ∧
    (run_pulls st_h counts).bytes_sent ≤ st_h.bytes_to_send := by
  induction counts generalizing st_h with
  | nil => exact ⟨rfl, le_refl _, h1⟩
  | cons c cs ih =>
    have e : run_pulls st_h (c :: cs) = run_pulls (random_reader_read st_h c).1 cs := rfl
    have hc : clamp st_h c ≤ st_h.bytes_to_send - st_h.bytes_sent := by
      unfold clamp; omega
    rw [e, random_reader_read_fst st_h c h1 h2]
    obtain ⟨a, b, d⟩ := ih { st_h with bytes_sent := st_h.bytes_sent + clamp st_h c }
      (show st_h.bytes_sent + clamp st_h c ≤ st_h.bytes_to_send by omega) h2
    refine ⟨a, ?_, d⟩
    have b' : st_h.bytes_sent + clamp st_h c ≤
      (run_pulls { st_h with bytes_sent := st_h.bytes_sent + clamp st_h c } cs).bytes_sent := b
    omega

/-- C3 (sender invariant).  From a context with `bytes_sent ≤ bytes_to_send`,
after any sequence `counts` of `random_reader_read` calls the counter has not
decreased and is still at most `bytes_to_send`; a further call with any
`count` returns `min(count, remaining, 65536)` (so at most that), advances
`bytes_sent` by exactly the value returned, and keeps it at most
`bytes_to_send`. -/
theorem reader_invariant (st_h : lsquic_stream_ctx) (counts : List Nat) (count : Nat)
    (h1 : st_h.bytes_sent ≤ st_h.bytes_to_send) (h2 : st_h.bytes_to_send < U64) :
    st_h.bytes_sent ≤ (run_pulls st_h counts).bytes_sent ∧
    (run_pulls st_h counts).bytes_sent ≤ (run_pulls st_h counts).bytes_to_send ∧
    (random_reader_read (run_pulls st_h counts) count).2 ≤
      min (min count ((run_pulls st_h counts).bytes_to_send - (run_pulls st_h counts).bytes_sent))
        65536 ∧
    (random_reader_read (run_pulls st_h counts) count).2 =
      min (min count ((run_pulls st_h counts).bytes_to_send - (run_pulls st_h counts).bytes_sent))
        65536 ∧
    (random_reader_read (run_pulls st_h counts) count).1.bytes_sent =
      (run_pulls st_h counts).bytes_sent + (random_reader_read (run_pulls st_h counts) count).2 ∧
    (run_pulls st_h counts).bytes_sent ≤
      (random_reader_read (run_pulls st_h counts) count).1.bytes_sent ∧
    (random_reader_read (run_pulls st_h counts) count).1.bytes_sent ≤
      (random_reader_read (run_pulls st_h counts) count).1.bytes_to_send := by
  obtain ⟨a, b, d⟩ := run_pulls_inv counts st_h h1 h2
  have d' : (run_pulls st_h counts).bytes_sent ≤ (run_pulls st_h counts).bytes_to_send := by
    rw [a]; exact d
  have h2' : (run_pulls st_h counts).bytes_to_send < U64 := by rw [a]; exact h2
  have hs := random_reader_read_snd (run_pulls st_h counts) count d' h2'
  have hf := random_reader_read_fst (run_pulls st_h counts) count d' h2'
  have hc : clamp (run_pulls st_h counts) count =
      min (min count ((run_pulls st_h counts).bytes_to_send - (run_pulls st_h counts).bytes_sent))
        65536 := rfl
  rw [hf, hs, hc]
  refine ⟨b, d', le_refl _, rfl, rfl, ?_, ?_⟩
  · show (run_pulls st_h counts).bytes_sent ≤ (run_pulls st_h counts).bytes_sent + _
    omega
  · show (run_pulls st_h counts).bytes_sent + _ ≤ (run_pulls st_h counts).bytes_to_send
    omega

/-- Witness for C3: 10 bytes left of a 100-byte target, the engine asks for 70000. -/
theorem reader_invariant_witness :
    (random_reader_read (run_pulls (new_stream_ctx 100 ⟨0, 0⟩) [30, 0, 60]) 70000).2 = 10 ∧
    (random_reader_read (run_pulls (new_stream_ctx 100 ⟨0, 0⟩) [30, 0, 60]) 70000).1.bytes_sent
      = 100 :=
  have h := reader_invariant (new_stream_ctx 100 ⟨0, 0⟩) [30, 0, 60] 70000
    (by decide) (by norm_num [new_stream_ctx, U64])
  ⟨h.2.2.2.1.trans (by decide), h.2.2.2.2.1.trans (by decide)⟩

end SpeedClient

namespace SpeedClient

/-- C4 (sender backpressure).  While `bytes_sent < bytes_to_send`, a
`client_on_write` call in which the engine pulls nothing and returns 0 leaves
the whole stream context unchanged (so `bytes_sent` and `sending_done` keep
their values) and issues no engine call: no close, no interest flag; in the
call that follows, an engine that pulls `k` bytes (whatever it returns)
leaves `bytes_sent` larger by `min(k, remaining, 65536)`. -/
theorem sender_backpressure (lr : Nat) (st_h : lsquic_stream_ctx) (now now2 : timeval)
    (k : Nat) (nw : Int)
    (h1 : st_h.bytes_sent < st_h.bytes_to_send) (h2 : st_h.bytes_to_send < U64)
    (h3 : st_h.sending_done = 0) :
    (client_on_write lr st_h ⟨[], 0⟩ now).2.1 = st_h ∧
    (client_on_write lr st_h ⟨[], 0⟩ now).2.1.sending_done = 0 ∧
    (client_on_write lr st_h ⟨[], 0⟩ now).2.2.calls = [] ∧
    (client_on_write (client_on_write lr st_h ⟨[], 0⟩ now).1
        (client_on_write lr st_h ⟨[], 0⟩ now).2.1 ⟨[k], nw⟩ now2).2.1.bytes_sent =
      st_h.bytes_sent + min (min k (st_h.bytes_to_send - st_h.bytes_sent)) 65536 := by
  have hlt : ¬ st_h.bytes_sent ≥ st_h.bytes_to_send := by omega
  have e1 : (client_on_write lr st_h ⟨[], 0⟩ now).2.1 = st_h := by
    simp [client_on_write, run_pulls, hlt]
  have e2 : (client_on_write lr st_h ⟨[], 0⟩ now).2.2.calls = [] := by
    simp [client_on_write, run_pulls, hlt]
  refine ⟨e1, by rw [e1]; exact h3, e2, ?_⟩
  rw [e1]
  have hp : run_pulls st_h [k] = (random_reader_read st_h k).1 := rfl
  have hf := random_reader_read_fst st_h k (le_of_lt h1) h2
  have hb : (run_pulls st_h [k]).bytes_sent =
      st_h.bytes_sent + min (min k (st_h.bytes_to_send - st_h.bytes_sent)) 65536 := by
    rw [hp, hf]; rfl
  unfold client_on_write
  dsimp only
  split_ifs <;> exact hb

/-- Witness for C4: 1000 of 200000 bytes sent, a stalled call, then 70000 bytes pulled. -/
theorem sender_backpressure_witness :
    (client_on_write 0 { new_stream_ctx 200000 ⟨0, 0⟩ with bytes_sent := 1000 } ⟨[], 0⟩
      ⟨1, 0⟩).2.2.calls = [] ∧
    (client_on_write
      (client_on_write 0 { new_stream_ctx 200000 ⟨0, 0⟩ with bytes_sent := 1000 } ⟨[], 0⟩
        ⟨1, 0⟩).1
      (client_on_write 0 { new_stream_ctx 200000 ⟨0, 0⟩ with bytes_sent := 1000 } ⟨[], 0⟩
        ⟨1, 0⟩).2.1 ⟨[70000], 65536⟩ ⟨2, 0⟩).2.1.bytes_sent = 66536 :=
  have h := sender_backpressure 0 { new_stream_ctx 200000 ⟨0, 0⟩ with bytes_sent := 1000 }
    ⟨1, 0⟩ ⟨2, 0⟩ 70000 65536 (by decide) (by norm_num [new_stream_ctx, U64]) rfl
  ⟨h.2.2.1, h.2.2.2.trans (by decide)⟩

end SpeedClient

namespace SpeedClient

/-! ## The reply buffer of the client -/

theorem client_on_read_fits (st_h : lsquic_stream_ctx) (bytes : List Char)
    (hpos : 0 < bytes.length) (hlen : bytes.length ≤ 255) (hok : reply_ok st_h)
    (hfit : st_h.result_off + bytes.length < 512) :
    client_on_read st_h (StreamRead.data bytes) =
      some ({ st_h with
              result_buf := (st_h.result_buf.take st_h.result_off ++ bytes ++
                st_h.result_buf.drop (st_h.result_off + bytes.length)).set
                  (st_h.result_off + bytes.length) NUL
              result_off := st_h.result_off + bytes.length }, ⟨[], []⟩) := by
  obtain ⟨h1, h2, -⟩ := hok
  have ha : add64 st_h.result_off bytes.length = st_h.result_off + bytes.length :=
    add64_of_lt (by unfold U64; omega)
  have hnr : ((bytes.length : Int) > 0) := by omega
  have hl : (st_h.result_buf.take st_h.result_off ++ bytes ++
      st_h.result_buf.drop (st_h.result_off + bytes.length)).length = 512 := by
    simp only [List.length_append, List.length_take, List.length_drop, h2]
    omega
  have hm : buf_memcpy st_h.result_buf st_h.result_off bytes =
      some (st_h.result_buf.take st_h.result_off ++ bytes ++
        st_h.result_buf.drop (st_h.result_off + bytes.length)) := by
    unfold buf_memcpy
    rw [if_pos (by omega)]
  have hw : buf_write (st_h.result_buf.take st_h.result_off ++ bytes ++
        st_h.result_buf.drop (st_h.result_off + bytes.length))
        (st_h.result_off + bytes.length) NUL =
      some ((st_h.result_buf.take st_h.result_off ++ bytes ++
        st_h.result_buf.drop (st_h.result_off + bytes.length)).set
          (st_h.result_off + bytes.length) NUL) := by
    unfold buf_write
    rw [if_pos (by rw [hl]; exact hfit)]
  unfold client_on_read
  simp only [StreamRead.nr, StreamRead.bytes, Int.toNat_ofNat]
  rw [if_pos hnr, if_neg (by omega), ha, if_pos hfit, hm]
  dsimp only
  rw [hw]

theorem client_on_read_full (st_h : lsquic_stream_ctx) (bytes : List Char)
    (hpos : 0 < bytes.length) (hlen : bytes.length ≤ 255) (hok : reply_ok st_h)
    (hfull : 512 ≤ st_h.result_off + bytes.length) :
    client_on_read st_h (StreamRead.data bytes) = some (st_h, ⟨[], []⟩) := by
  obtain ⟨h1, h2, -⟩ := hok
  have ha : add64 st_h.result_off bytes.length = st_h.result_off + bytes.length :=
    add64_of_lt (by unfold U64; omega)
  have hnr : ((bytes.length : Int) > 0) := by omega
  unfold client_on_read
  simp only [StreamRead.nr, StreamRead.bytes, Int.toNat_ofNat]
  rw [if_pos hnr, if_neg (by omega), ha, if_neg (by omega)]

theorem reply_ok_fits (st_h : lsquic_stream_ctx) (bytes : List Char) (hok : reply_ok st_h)
    (hfit : st_h.result_off + bytes.length < 512) :
    reply_ok { st_h with
      result_buf := (st_h.result_buf.take st_h.result_off ++ bytes ++
        st_h.result_buf.drop (st_h.result_off + bytes.length)).set
          (st_h.result_off + bytes.length) NUL
      result_off := st_h.result_off + bytes.length } := by
  obtain ⟨h1, h2, -⟩ := hok
  have hl : (st_h.result_buf.take st_h.result_off ++ bytes ++
      st_h.result_buf.drop (st_h.result_off + bytes.length)).length = 512 := by
    simp only [List.length_append, List.length_take, List.length_drop, h2]
    omega
  refine ⟨hfit, ?_, ?_⟩
  · show ((_ : List Char).set _ _).length = 512
    rw [List.length_set]; exact hl
  · show ((_ : List Char).set _ _)[_]? = some NUL
    exact List.getElem?_set_self (by rw [hl]; exact hfit)

end SpeedClient

namespace SpeedClient

theorem client_on_read_ok (st_h : lsquic_stream_ctx) (bytes : List Char)
    (hpos : 0 < bytes.length) (hlen : bytes.length ≤ 255) (hok : reply_ok st_h) :
    ∃ st1, client_on_read st_h (StreamRead.data bytes) = some (st1, ⟨[], []⟩) ∧ reply_ok st1 := by
  by_cases hfit : st_h.result_off + bytes.length < 512
  · exact ⟨_, client_on_read_fits st_h bytes hpos hlen hok hfit, reply_ok_fits st_h bytes hok hfit⟩
  · exact ⟨st_h, client_on_read_full st_h bytes hpos hlen hok (by omega), hok⟩

theorem client_reads_ok (chunks : List (List Char)) (st_h : lsquic_stream_ctx)
    (hc : ∀ c ∈ chunks, 0 < c.length ∧ c.length ≤ 255) (hok : reply_ok st_h) :
    ∃ st1, client_reads st_h (chunks.map StreamRead.data) = some st1 ∧ reply_ok st1 := by
  induction chunks generalizing st_h with
  | nil => exact ⟨st_h, rfl, hok⟩
  | cons c cs ih =>
    obtain ⟨hp, hl⟩ := hc c (List.mem_cons_self _ _)
    obtain ⟨st1, e1, ok1⟩ := client_on_read_ok st_h c hp hl hok
    obtain ⟨st2, e2, ok2⟩ := ih st1 (fun d hd => hc d (List.mem_cons_of_mem _ hd)) ok1
    refine ⟨st2, ?_, ok2⟩
    simp only [List.map_cons, client_reads, e1]
    exact e2

theorem reply_ok_new (T : Nat) (t0 : timeval) : reply_ok (new_stream_ctx T t0) := by
  refine ⟨?_, ?_, ?_⟩
  · show 0 < 512
    decide
  · show (List.replicate 512 NUL).length = 512
    exact List.length_replicate _ _
  · show (List.replicate 512 NUL)[0]? = some NUL
    rw [List.getElem?_replicate, if_pos (by decide)]

/-- C10 (the reply buffer of the sender never overflows).  Starting from the
fresh context (`result_off = 0`), any sequence of `client_on_read` calls with
chunks of 1 to 255 bytes performs no store outside `buf[256]` or
`result_buf[512]` (the run does not end in `none`); afterwards
`result_off < 512`, the buffer still has 512 bytes and the byte at
`result_off` is the NUL.  A further chunk that would not fit
(`result_off + nr ≥ 512`) leaves the whole context unchanged; one that fits
advances `result_off` by its length and keeps the buffer in order. -/
theorem reply_buffer_never_overflows (T : Nat) (t0 : timeval) (chunks : List (List Char))
    (hc : ∀ c ∈ chunks, 0 < c.length ∧ c.length ≤ 255) :
    ∃ st1, client_reads (new_stream_ctx T t0) (chunks.map StreamRead.data) = some st1 ∧
      st1.result_off < 512 ∧ st1.result_buf.length = 512 ∧
      st1.result_buf[st1.result_off]? = some NUL ∧
      ∀ c : List Char, 0 < c.length → c.length ≤ 255 →
        (512 ≤ st1.result_off + c.length →
          client_on_read st1 (StreamRead.data c) = some (st1, ⟨[], []⟩)) ∧
        (st1.result_off + c.length < 512 →
          ∃ st2, client_on_read st1 (StreamRead.data c) = some (st2, ⟨[], []⟩) ∧
            st2.result_off = st1.result_off + c.length ∧ st2.result_off < 512 ∧
            st2.result_buf.length = 512 ∧ st2.result_buf[st2.result_off]? = some NUL) := by
  obtain ⟨st1, e1, ok1⟩ := client_reads_ok chunks (new_stream_ctx T t0) hc (reply_ok_new T t0)
  refine ⟨st1, e1, ok1.1, ok1.2.1, ok1.2.2, ?_⟩
  intro c hp hl
  refine ⟨fun hfull => client_on_read_full st1 c hp hl ok1 hfull, fun hfit => ?_⟩
  have ok2 := reply_ok_fits st1 c ok1 hfit
  exact ⟨_, client_on_read_fits st1 c hp hl ok1 hfit, rfl, ok2.1, ok2.2.1, ok2.2.2⟩

/-- Witness for C10: two chunks of 255 bytes fill the buffer to offset 510;
a third chunk of 255 bytes does not fit and changes nothing. -/
theorem reply_buffer_never_overflows_witness :
    ∃ st1, client_reads (new_stream_ctx 0 ⟨0, 0⟩)
        ([List.replicate 255 'a', List.replicate 255 'b'].map StreamRead.data) = some st1 ∧
      st1.result_off < 512 ∧
      (512 ≤ st1.result_off + (List.replicate 255 'c').length →
        client_on_read st1 (StreamRead.data (List.replicate 255 'c')) = some (st1, ⟨[], []⟩)) := by
  obtain ⟨st1, e1, h1, -, -, h4⟩ := reply_buffer_never_overflows 0 ⟨0, 0⟩
    [List.replicate 255 'a', List.replicate 255 'b']
    (by
      intro c hc
      simp only [List.mem_cons, List.mem_singleton, List.not_mem_nil, or_false] at hc
      rcases hc with rfl | rfl <;> (rw [List.length_replicate]; decide))
  exact ⟨st1, e1, h1, (h4 (List.replicate 255 'c') (by rw [List.length_replicate]; decide)
    (by rw [List.length_replicate])).1⟩

end SpeedClient

namespace SpeedClient

/-! ## What advances `bytes_sent`, and the report anchor -/

theorem client_on_write_bytes_sent (lr : Nat) (st_h : lsquic_stream_ctx) (w : Writef)
    (now : timeval) :
    (client_on_write lr st_h w now).2.1.bytes_sent = (run_pulls st_h w.pulls).bytes_sent := by
  unfold client_on_write
  dsimp only
  split_ifs <;> rfl

theorem run_pulls_total (pulls : List Nat) (st_h : lsquic_stream_ctx)
    (h1 : st_h.bytes_sent ≤ st_h.bytes_to_send) (h2 : st_h.bytes_to_send < U64) :
    (run_pulls st_h pulls).bytes_sent = st_h.bytes_sent + pull_total st_h pulls := by
  induction pulls generalizing st_h with
  | nil => rfl
  | cons c cs ih =>
    have e : run_pulls st_h (c :: cs) = run_pulls (random_reader_read st_h c).1 cs := rfl
    have hc : clamp st_h c ≤ st_h.bytes_to_send - st_h.bytes_sent := by
      unfold clamp; omega
    have hf := random_reader_read_fst st_h c h1 h2
    have hs := random_reader_read_snd st_h c h1 h2
    have hb : (random_reader_read st_h c).1.bytes_sent = st_h.bytes_sent + clamp st_h c := by
      rw [hf]
    have ht : (random_reader_read st_h c).1.bytes_to_send = st_h.bytes_to_send := by
      rw [hf]
    rw [e, ih (random_reader_read st_h c).1 (by rw [hb, ht]; omega) (by rw [ht]; exact h2), hb]
    show _ = st_h.bytes_sent + ((random_reader_read st_h c).2 + _)
    rw [hs]
    omega

/-- Counterexample for C15.  The engine pulls 100 bytes through the reader and
returns 50: `bytes_sent` goes from 0 to 100, not to 50. -/
theorem sender_advances_by_pulled :
    (client_on_write 0 (new_stream_ctx 1000 ⟨0, 0⟩) ⟨[100], 50⟩ ⟨1, 0⟩).2.1.bytes_sent = 100 ∧
    (client_on_write 0 (new_stream_ctx 1000 ⟨0, 0⟩) ⟨[100], 50⟩ ⟨1, 0⟩).2.1.bytes_sent ≠
      (new_stream_ctx 1000 ⟨0, 0⟩).bytes_sent + 50 := by
  decide

/-- C15 as amended.  Whatever value the engine's write returns, `bytes_sent`
after a call of `client_on_write` is `bytes_sent` before the call plus the
number of bytes the engine pulled through `random_reader_read` during the
call; it is `bytes_sent` plus the returned value `n` when the engine returns
the number of bytes it pulled. -/
theorem sender_progress (lr : Nat) (st_h : lsquic_stream_ctx) (w : Writef) (now : timeval)
    (h1 : st_h.bytes_sent ≤ st_h.bytes_to_send) (h2 : st_h.bytes_to_send < U64) :
    (client_on_write lr st_h w now).2.1.bytes_sent =
      st_h.bytes_sent + pull_total st_h w.pulls ∧
    (w.nw = (pull_total st_h w.pulls : Int) →
      ((client_on_write lr st_h w now).2.1.bytes_sent : Int) = (st_h.bytes_sent : Int) + w.nw) := by
  have e : (client_on_write lr st_h w now).2.1.bytes_sent =
      st_h.bytes_sent + pull_total st_h w.pulls := by
    rw [client_on_write_bytes_sent, run_pulls_total w.pulls st_h h1 h2]
  refine ⟨e, fun hn => ?_⟩
  rw [e, hn]
  push_cast
  rfl

/-- Witness for C15 as amended: two pulls of 300 and 900 bytes with 1000 bytes left. -/
theorem sender_progress_witness :
    (client_on_write 0 (new_stream_ctx 1000 ⟨0, 0⟩) ⟨[300, 900], 1000⟩ ⟨1, 0⟩).2.1.bytes_sent
      = 1000 :=
  (sender_progress 0 (new_stream_ctx 1000 ⟨0, 0⟩) ⟨[300, 900], 1000⟩ ⟨1, 0⟩ (by decide)
    (by norm_num [new_stream_ctx, U64])).1.trans (by decide)

/-- C12 (the report anchor is not per stream).  Two runs that agree on the
context of a stream and on what the engine does in its callback, and differ
only in one writable callback delivered before to another stream: without that
callback the stream's callback emits no progress report, with it (it moves the
`static` anchor to 100 MiB) the same callback emits one at 64 KiB. -/
theorem static_anchor_shared :
    (client_on_write 0 (new_stream_ctx 1073741824 ⟨0, 0⟩) ⟨[65536], 65536⟩ ⟨1, 0⟩).2.2.logs
      = [] ∧
    (client_on_write 0 { new_stream_ctx 1073741824 ⟨0, 0⟩ with bytes_sent := 104792064 }
      ⟨[65536], 65536⟩ ⟨1, 0⟩).1 = 104857600 ∧
    (client_on_write
      (client_on_write 0 { new_stream_ctx 1073741824 ⟨0, 0⟩ with bytes_sent := 104792064 }
        ⟨[65536], 65536⟩ ⟨1, 0⟩).1
      (new_stream_ctx 1073741824 ⟨0, 0⟩) ⟨[65536], 65536⟩ ⟨1, 0⟩).2.2.logs
      = [LogLine.progress 65536] := by
  decide

end SpeedClient

namespace SpeedClient

/-! ## What the reply buffer of the client holds -/

theorem take_fits (buf bytes : List Char) (off : Nat) (h : off ≤ buf.length) :
    ((buf.take off ++ bytes ++ buf.drop (off + bytes.length)).set (off + bytes.length) NUL).take
      (off + bytes.length) = buf.take off ++ bytes := by
  have hl : (buf.take off ++ bytes).length = off + bytes.length := by
    rw [List.length_append, List.length_take, Nat.min_eq_left h]
  rw [List.set_take, List.take_left' hl]
  exact List.set_eq_of_length_le (by rw [hl])

/-- The stored reply after a run of chunks: what was stored before, followed
by the chunks that fitted. -/
theorem client_reads_content (chunks : List (List Char)) (st_h : lsquic_stream_ctx)
    (hc : ∀ c ∈ chunks, 0 < c.length ∧ c.length ≤ 255) (hok : reply_ok st_h) :
    ∃ st1, client_reads st_h (chunks.map StreamRead.data) = some st1 ∧ reply_ok st1 ∧
      st1.result_buf.take st1.result_off =
        st_h.result_buf.take st_h.result_off ++ (kept st_h.result_off chunks).flatten ∧
      st1.result_off = st_h.result_off + (kept st_h.result_off chunks).flatten.length := by
  induction chunks generalizing st_h with
  | nil => exact ⟨st_h, rfl, hok, by simp [kept], by simp [kept]⟩
  | cons c cs ih =>
    obtain ⟨hp, hl⟩ := hc c (List.mem_cons_self _ _)
    have hcs : ∀ d ∈ cs, 0 < d.length ∧ d.length ≤ 255 :=
      fun d hd => hc d (List.mem_cons_of_mem _ hd)
    by_cases hfit : st_h.result_off + c.length < 512
    · have e1 := client_on_read_fits st_h c hp hl hok hfit
      have ok1 := reply_ok_fits st_h c hok hfit
      obtain ⟨st2, e2, ok2, t2, o2⟩ := ih _ hcs ok1
      refine ⟨st2, ?_, ok2, ?_, ?_⟩
      · simp only [List.map_cons, client_reads, e1]
        exact e2
      · rw [t2]
        simp only [kept, if_pos hfit, List.flatten_cons]
        rw [take_fits _ _ _ (by rw [hok.2.1]; exact le_of_lt hok.1), List.append_assoc]
      · rw [o2]
        simp only [kept, if_pos hfit, List.flatten_cons, List.length_append]
        omega
    · have e1 := client_on_read_full st_h c hp hl hok (by omega)
      obtain ⟨st2, e2, ok2, t2, o2⟩ := ih st_h hcs hok
      refine ⟨st2, ?_, ok2, ?_, ?_⟩
      · simp only [List.map_cons, client_reads, e1]
        exact e2
      · rw [t2]; simp only [kept, if_neg hfit]
      · rw [o2]; simp only [kept, if_neg hfit]

/-- When everything fits, every chunk is kept. -/
theorem kept_all (chunks : List (List Char)) (off : Nat) (h : off + chunks.flatten.length < 512) :
    kept off chunks = chunks := by
  induction chunks generalizing off with
  | nil => rfl
  | cons c cs ih =>
    simp only [List.flatten_cons, List.length_append] at h
    simp only [kept]
    rw [if_pos (by omega), ih (off + c.length) (by omega)]

/-- Counterexample for C19.  Chunks of 255, 255, 2 and 1 bytes: the third does
not fit at offset 510 and is dropped, the fourth fits and is stored, so the
511 bytes held end in the `d` of the fourth chunk, while the 511th byte
received is a `c`. -/
theorem reply_skips_a_chunk :
    (client_reads (new_stream_ctx 0 ⟨0, 0⟩)
        ([List.replicate 255 'a', List.replicate 255 'b', ['c', 'c'], ['d']].map
          StreamRead.data)).map
        (fun st => (st.result_off, (st.result_buf.take st.result_off)[510]?))
      = some (511, some 'd') ∧
    ([List.replicate 255 'a', List.replicate 255 'b', ['c', 'c'], ['d']].flatten)[510]? =
      some 'c' := by
  set_option maxRecDepth 100000 in decide

/-- C19 as amended.  After any sequence of chunks of 1 to 255 bytes delivered
to `client_on_read` from the fresh context, `result_buf[0 .. result_off)` is
the concatenation, in order of arrival, of the chunks that fitted when they
arrived (`kept`: a chunk with `result_off + nr ≥ 512` is left out, later ones
that fit are still stored); it is the whole concatenation of the chunks
whenever the total length is below 512. -/
theorem reply_content (T : Nat) (t0 : timeval) (chunks : List (List Char))
    (hc : ∀ c ∈ chunks, 0 < c.length ∧ c.length ≤ 255) :
    ∃ st1, client_reads (new_stream_ctx T t0) (chunks.map StreamRead.data) = some st1 ∧
      st1.result_buf.take st1.result_off = (kept 0 chunks).flatten ∧
      (chunks.flatten.length < 512 → st1.result_buf.take st1.result_off = chunks.flatten) := by
  obtain ⟨st1, e1, -, t1, -⟩ := client_reads_content chunks (new_stream_ctx T t0) hc
    (reply_ok_new T t0)
  have h0 : (new_stream_ctx T t0).result_off = 0 := rfl
  rw [h0, List.take_zero, List.nil_append] at t1
  refine ⟨st1, e1, t1, fun hlt => ?_⟩
  rw [t1, kept_all chunks 0 (by omega)]

/-- Witness for C19 as amended: the reply `RESULT: ` arriving in two chunks. -/
theorem reply_content_witness :
    ∃ st1, client_reads (new_stream_ctx 0 ⟨0, 0⟩)
        (["RESU".toList, "LT: ".toList].map StreamRead.data) = some st1 ∧
      st1.result_buf.take st1.result_off = "RESULT: ".toList := by
  obtain ⟨st1, e1, -, t1⟩ := reply_content 0 ⟨0, 0⟩ ["RESU".toList, "LT: ".toList]
    (by
      intro c hc
      simp only [List.mem_cons, List.mem_singleton, List.not_mem_nil, or_false] at hc
      rcases hc with rfl | rfl <;> decide)
  exact ⟨st1, e1, t1 (by decide)⟩

end SpeedClient

namespace SpeedClient

/-! ## Parsing the transfer size -/

theorem decimal_value_foldl (ds : List Char) (a : Nat) :
    ds.foldl (fun a c => a * 10 + (c.toNat - 48)) a =
      a * 10 ^ ds.length + decimal_value ds := by
  unfold decimal_value
  induction ds generalizing a with
  | nil => simp
  | cons c cs ih =>
    rw [List.foldl_cons, List.foldl_cons, ih, ih (0 * 10 + (c.toNat - 48)), List.length_cons]
    ring

theorem decimal_value_cons (c : Char) (ds : List Char) :
    decimal_value (c :: ds) = (c.toNat - 48) * 10 ^ ds.length + decimal_value ds := by
  have h := decimal_value_foldl ds (0 * 10 + (c.toNat - 48))
  have e : decimal_value (c :: ds) =
      ds.foldl (fun a c => a * 10 + (c.toNat - 48)) (0 * 10 + (c.toNat - 48)) := rfl
  rw [e, h, Nat.zero_mul, Nat.zero_add]

theorem digitChar_digit (k : Nat) (hk : k < 10) :
    is_digit (Nat.digitChar k) = true ∧ (Nat.digitChar k).toNat - 48 = k := by
  interval_cases k <;> decide

/-- The decimal numeral of `n`, as `Nat.toDigits` builds it, denotes `n` and
consists of digits. -/
theorem toDigitsCore_spec (fuel n : Nat) (ds : List Char) (hf : n < fuel)
    (hd : ∀ c ∈ ds, is_digit c = true) :
    decimal_value (Nat.toDigitsCore 10 fuel n ds) = n * 10 ^ ds.length + decimal_value ds ∧
    (∀ c ∈ Nat.toDigitsCore 10 fuel n ds, is_digit c = true) ∧
    Nat.toDigitsCore 10 fuel n ds ≠ [] := by
  induction fuel generalizing n ds with
  | zero => omega
  | succ fuel ih =>
    obtain ⟨d1, d2⟩ := digitChar_digit (n % 10) (Nat.mod_lt _ (by decide))
    have hd' : ∀ c ∈ Nat.digitChar (n % 10) :: ds, is_digit c = true := by
      intro c hc
      rcases List.mem_cons.mp hc with rfl | h2
      · exact d1
      · exact hd c h2
    unfold Nat.toDigitsCore
    dsimp only
    by_cases h0 : n / 10 = 0
    · rw [if_pos h0]
      refine ⟨?_, hd', by simp⟩
      rw [decimal_value_cons, d2]
      have : n % 10 = n := by omega
      rw [this]
    · rw [if_neg h0]
      obtain ⟨a, b, c⟩ := ih (n / 10) (Nat.digitChar (n % 10) :: ds) (by omega) hd'
      refine ⟨?_, b, c⟩
      rw [a, decimal_value_cons, d2, List.length_cons, pow_succ]
      have hn : n = 10 * (n / 10) + n % 10 := (Nat.div_add_mod n 10).symm
      nth_rewrite 3 [hn]
      ring

theorem toDigits_spec (n : Nat) :
    decimal_value (Nat.toDigits 10 n) = n ∧
    (∀ c ∈ Nat.toDigits 10 n, is_digit c = true) ∧ Nat.toDigits 10 n ≠ [] := by
  obtain ⟨a, b, c⟩ := toDigitsCore_spec (n + 1) n [] (by omega) (by simp)
  refine ⟨?_, b, c⟩
  unfold Nat.toDigits
  rw [a]
  simp [decimal_value]

end SpeedClient

namespace SpeedClient

theorem digit_not_space (c : Char) (h : is_digit c = true) : is_space c = false := by
  unfold is_digit at h
  unfold is_space
  simp only [Bool.and_eq_true, decide_eq_true_eq] at h
  simp only [Bool.or_eq_false_iff, decide_eq_false_iff_not, Bool.and_eq_false_iff]
  constructor
  · omega
  · right; omega

theorem digit_not_sign (c : Char) (h : is_digit c = true) : c ≠ '-' ∧ c ≠ '+' := by
  constructor
  · rintro rfl; exact absurd h (by decide)
  · rintro rfl; exact absurd h (by decide)

theorem span_digits (ds rest : List Char) (hd : ∀ c ∈ ds, is_digit c = true)
    (hr : ∀ c, rest.head? = some c → is_digit c = false) :
    (ds ++ rest).takeWhile is_digit = ds ∧ (ds ++ rest).dropWhile is_digit = rest := by
  induction ds with
  | nil =>
    cases rest with
    | nil => exact ⟨rfl, rfl⟩
    | cons c t =>
      have hc := hr c rfl
      constructor
      · simp [List.takeWhile_cons, hc]
      · simp [List.dropWhile_cons, hc]
  | cons d ds ih =>
    have h1 := hd d (List.mem_cons_self _ _)
    obtain ⟨a, b⟩ := ih (fun c hc => hd c (List.mem_cons_of_mem _ hc))
    constructor
    · rw [List.cons_append, List.takeWhile_cons, if_pos h1, a]
    · rw [List.cons_append, List.dropWhile_cons, if_pos h1, b]

/-- What `strtoull` gives on a run of digits followed by something that is not a digit. -/
theorem strtoull_digits (ds rest : List Char) (hne : ds ≠ [])
    (hd : ∀ c ∈ ds, is_digit c = true) (hr : ∀ c, rest.head? = some c → is_digit c = false) :
    strtoull (ds ++ rest) = (min (decimal_value ds) (U64 - 1), rest) := by
  obtain ⟨d, t, rfl⟩ := List.exists_cons_of_ne_nil hne
  have h1 := hd d (List.mem_cons_self _ _)
  have hs := digit_not_space d h1
  obtain ⟨hm, hp⟩ := digit_not_sign d h1
  obtain ⟨a, b⟩ := span_digits (d :: t) rest hd hr
  have e1 : (d :: t ++ rest).dropWhile is_space = d :: t ++ rest := by
    rw [List.cons_append, List.dropWhile_cons, if_neg (by rw [hs]; simp)]
  have e2 : (d :: t ++ rest).head? = some d := rfl
  unfold strtoull
  simp only [e1, e2, Option.some.injEq, hm, hp, or_self, if_false, a, b, decide_False]
  rw [if_neg (by simp)]
  by_cases hbig : U64 ≤ decimal_value (d :: t)
  · rw [if_pos hbig, Nat.min_eq_right (by omega)]
  · rw [if_neg hbig, Nat.min_eq_left (by omega)]
    simp

end SpeedClient

namespace SpeedClient

theorem parse_size_digits (ds rest : List Char) (hne : ds ≠ [])
    (hd : ∀ c ∈ ds, is_digit c = true) (hr : ∀ c, rest.head? = some c → is_digit c = false) :
    parse_size (ds ++ rest) =
      if rest.headD NUL = 'K' ∨ rest.headD NUL = 'k' then
        mul64 (min (decimal_value ds) (U64 - 1)) 1024
      else if rest.headD NUL = 'M' ∨ rest.headD NUL = 'm' then
        mul64 (min (decimal_value ds) (U64 - 1)) (1024 * 1024)
      else if rest.headD NUL = 'G' ∨ rest.headD NUL = 'g' then
        mul64 (min (decimal_value ds) (U64 - 1)) (1024 * 1024 * 1024)
      else min (decimal_value ds) (U64 - 1) := by
  unfold parse_size
  rw [strtoull_digits ds rest hne hd hr]

/-- Counterexample for C11.  The decimal number `2 ^ 64` is read as
`2 ^ 64 - 1`: without a suffix `parse_size` returns `2 ^ 64 - 1`, which is
neither the number nor the number modulo `2 ^ 64`; with the suffix `K` it
returns `2 ^ 64 - 1024`, not `2 ^ 64 * 1024` modulo `2 ^ 64`. -/
theorem parse_size_saturates :
    parse_size "18446744073709551616".toList = 18446744073709551615 ∧
    18446744073709551616 % U64 = 0 ∧
    parse_size "18446744073709551616K".toList = 18446744073709550592 ∧
    (18446744073709551616 * 1024) % U64 = 0 := by
  decide

/-- C11 as amended.  For the decimal numeral of any number `n`, followed by
anything that does not start with a digit, `strtoull` reads `n` when
`n < 2 ^ 64` and `2 ^ 64 - 1` otherwise; `parse_size` returns that value `v`
when nothing follows, `v * 1024` for `K` or `k`, `v * 1024 ^ 2` for `M` or
`m`, `v * 1024 ^ 3` for `G` or `g`, each modulo `2 ^ 64`, and `v` unmultiplied
for any other character that follows. -/
theorem parse_size_spec (n : Nat) (rest : List Char)
    (hr : ∀ c, rest.head? = some c → is_digit c = false) :
    (rest = [] →
      parse_size (Nat.toDigits 10 n ++ rest) = if n < U64 then n else U64 - 1) ∧
    (rest.head? = some 'K' ∨ rest.head? = some 'k' →
      parse_size (Nat.toDigits 10 n ++ rest) = ((if n < U64 then n else U64 - 1) * 1024) % U64) ∧
    (rest.head? = some 'M' ∨ rest.head? = some 'm' →
      parse_size (Nat.toDigits 10 n ++ rest) =
        ((if n < U64 then n else U64 - 1) * (1024 * 1024)) % U64) ∧
    (rest.head? = some 'G' ∨ rest.head? = some 'g' →
      parse_size (Nat.toDigits 10 n ++ rest) =
        ((if n < U64 then n else U64 - 1) * (1024 * 1024 * 1024)) % U64) ∧
    (∀ c, rest.head? = some c →
      c ≠ 'K' → c ≠ 'k' → c ≠ 'M' → c ≠ 'm' → c ≠ 'G' → c ≠ 'g' →
      parse_size (Nat.toDigits 10 n ++ rest) = if n < U64 then n else U64 - 1) := by
  obtain ⟨hv, hd, hne⟩ := toDigits_spec n
  have hp := parse_size_digits (Nat.toDigits 10 n) rest hne hd hr
  rw [hv] at hp
  have hmin : min n (U64 - 1) = if n < U64 then n else U64 - 1 := by
    have hU : 0 < U64 := by unfold U64; positivity
    split_ifs with h
    · exact Nat.min_eq_left (by omega)
    · exact Nat.min_eq_right (by omega)
  rw [hmin] at hp
  have hhead : ∀ c, rest.head? = some c → rest.headD NUL = c := by
    intro c hc
    cases rest with
    | nil => simp at hc
    | cons x t => simpa using hc
  refine ⟨?_, ?_, ?_, ?_, ?_⟩
  · intro h
    subst h
    rw [hp]
    rw [if_neg (by decide), if_neg (by decide), if_neg (by decide)]
  · intro h
    rw [hp]
    rcases h with h | h
    · rw [hhead _ h, if_pos (Or.inl rfl)]; rfl
    · rw [hhead _ h, if_pos (Or.inr rfl)]; rfl
  · intro h
    rw [hp]
    rcases h with h | h
    · rw [hhead _ h, if_neg (by decide), if_pos (Or.inl rfl)]; rfl
    · rw [hhead _ h, if_neg (by decide), if_pos (Or.inr rfl)]; rfl
  · intro h
    rw [hp]
    rcases h with h | h
    · rw [hhead _ h, if_neg (by decide), if_neg (by decide), if_pos (Or.inl rfl)]; rfl
    · rw [hhead _ h, if_neg (by decide), if_neg (by decide), if_pos (Or.inr rfl)]; rfl
  · intro c hc h1 h2 h3 h4 h5 h6
    rw [hp, hhead c hc, if_neg (by rintro (h | h) <;> contradiction),
      if_neg (by rintro (h | h) <;> contradiction),
      if_neg (by rintro (h | h) <;> contradiction)]

/-- Witness for C11 as amended: `500M` is 500 MiB. -/
theorem parse_size_spec_witness :
    parse_size (Nat.toDigits 10 500 ++ ['M']) = 524288000 :=
  ((parse_size_spec 500 ['M'] (by intro c hc; simp at hc; subst hc; decide)).2.2.1
    (Or.inl rfl)).trans (by decide)

end SpeedClient

namespace SpeedServer

/-! ## The connection counter of the server -/

theorem closes_cons (ctx : server_ctx) (c : Nat) (cs : List Nat) :
    closes ctx (c :: cs) =
      ((closes (server_on_conn_closed ctx c).1 cs).1,
        (server_on_conn_closed ctx c).2 :: (closes (server_on_conn_closed ctx c).1 cs).2) := rfl

theorem conn_closed_nat (ctx : server_ctx) (c n : Nat) (h : ctx.n_conn = (n : Int)) :
    (server_on_conn_closed ctx c).1.n_conn = ((n - 1 : Nat) : Int) ∧
    (server_on_conn_closed ctx c).2.calls = if n = 1 then [EngineCall.prog_stop] else [] := by
  by_cases hn : n = 0
  · subst hn
    have h0 : ctx.n_conn = 0 := by simpa using h
    simp [server_on_conn_closed, h0]
  · have hne : ctx.n_conn ≠ 0 := by rw [h]; exact_mod_cast hn
    unfold server_on_conn_closed
    rw [if_pos hne]
    constructor
    · show ctx.n_conn - 1 = ((n - 1 : Nat) : Int)
      rw [h]; omega
    · show (if 0 = ctx.n_conn - 1 then [EngineCall.prog_stop] else []) = _
      rw [h]
      by_cases h1 : n = 1
      · subst h1; simp
      · rw [if_neg h1, if_neg]; omega

theorem map_range_succ {β : Type} (f : Nat → β) (k : Nat) :
    (List.range (k + 1)).map f = f 0 :: (List.range k).map (fun i => f (i + 1)) := by
  rw [List.range_succ_eq_map, List.map_cons, List.map_map]
  rfl

theorem closes_spec (cs : List Nat) (ctx : server_ctx) (n : Nat) (h : ctx.n_conn = (n : Int)) :
    (closes ctx cs).1.n_conn = ((n - cs.length : Nat) : Int) ∧
    (closes ctx cs).2.map Out.calls =
      (List.range cs.length).map
        (fun i => if i + 1 = n then [EngineCall.prog_stop] else []) ∧
    stop_count (closes ctx cs).2 = if 1 ≤ n ∧ n ≤ cs.length then 1 else 0 := by
  induction cs generalizing ctx n with
  | nil =>
    refine ⟨by simpa [closes] using h, by simp [closes], ?_⟩
    simp only [closes, stop_count, List.map_nil, List.sum_nil, List.length_nil]
    rw [if_neg]; omega
  | cons c cs ih =>
    rw [closes_cons]
    obtain ⟨e1, e2⟩ := conn_closed_nat ctx c n h
    obtain ⟨a, b, d⟩ := ih _ (n - 1) e1
    refine ⟨?_, ?_, ?_⟩
    · rw [a]; simp only [List.length_cons]; congr 1; omega
    · rw [List.length_cons, map_range_succ, List.map_cons, e2, b]
      congr 1
      · by_cases h1 : n = 1
        · rw [if_pos h1, if_pos]; omega
        · rw [if_neg h1, if_neg]; omega
      · apply List.map_congr_left
        intro i _
        by_cases hi : i + 1 = n - 1
        · rw [if_pos hi, if_pos]; omega
        · rw [if_neg hi, if_neg]; omega
    · simp only [stop_count, List.map_cons, List.sum_cons, e2, List.length_cons] at d ⊢
      rw [d]
      by_cases h1 : n = 1
      · subst h1; simp
      · rw [if_neg h1]
        simp only [List.count_nil, Nat.zero_add]
        by_cases h2 : 1 ≤ n - 1 ∧ n - 1 ≤ cs.length
        · rw [if_pos h2, if_pos]; omega
        · rw [if_neg h2, if_neg]; omega

/-- C9 (server stop policy).  For a configured count `N ≥ 1` and any sequence
of `k` connection-close callbacks, the counter `n_conn` is `max (N - k) 0`
afterwards (never below zero), `prog_stop` has been called once if `k ≥ N`
and not at all if `k < N`, and the callback that calls it is the `N`-th. -/
theorem server_stop_policy (N : Nat) (cs : List Nat) (hN : 1 ≤ N) :
    (closes (server_init N) cs).1.n_conn = max ((N : Int) - cs.length) 0 ∧
    0 ≤ (closes (server_init N) cs).1.n_conn ∧
    stop_count (closes (server_init N) cs).2 = (if N ≤ cs.length then 1 else 0) ∧
    (closes (server_init N) cs).2.map Out.calls =
      (List.range cs.length).map
        (fun i => if i + 1 = N then [EngineCall.prog_stop] else []) := by
  obtain ⟨a, b, d⟩ := closes_spec cs (server_init N) N rfl
  refine ⟨by rw [a]; omega, by rw [a]; omega, ?_, b⟩
  rw [d]
  by_cases h : N ≤ cs.length
  · rw [if_pos h, if_pos ⟨hN, h⟩]
  · rw [if_neg h, if_neg]; omega

/-- Witness for C9: `-n 2` and three closes stop the loop once, on the second close. -/
theorem server_stop_policy_witness :
    (closes (server_init 2) [7, 8, 9]).1.n_conn = 0 ∧
    stop_count (closes (server_init 2) [7, 8, 9]).2 = 1 ∧
    (closes (server_init 2) [7, 8, 9]).2.map Out.calls = [[], [EngineCall.prog_stop], []] :=
  have h := server_stop_policy 2 [7, 8, 9] (by decide)
  ⟨h.1.trans (by decide), h.2.2.1.trans (by decide), h.2.2.2.trans (by decide)⟩

end SpeedServer

namespace SpeedServer

/-! ## The readable callback of the server -/

theorem reads_cons (ft : FloatText) (st_h : lsquic_stream_ctx) (r : Int × timeval)
    (rs : List (Int × timeval)) :
    reads ft st_h (r :: rs) =
      ((reads ft (server_on_read st_h r.1 r.2 ft).1 rs).1,
        (server_on_read st_h r.1 r.2 ft).2 :: (reads ft (server_on_read st_h r.1 r.2 ft).1 rs).2) :=
  rfl

/-- A positive read only touches the byte counter and the report anchor. -/
theorem server_on_read_pos (st_h : lsquic_stream_ctx) (nr : Int) (now : timeval) (ft : FloatText)
    (h : 0 < nr) :
    (server_on_read st_h nr now ft).1.bytes_received = add64 st_h.bytes_received nr.toNat ∧
    (server_on_read st_h nr now ft).1.result_buf = st_h.result_buf ∧
    (server_on_read st_h nr now ft).1.result_len = st_h.result_len ∧
    (server_on_read st_h nr now ft).1.result_off = st_h.result_off ∧
    (server_on_read st_h nr now ft).1.start_time = st_h.start_time ∧
    (server_on_read st_h nr now ft).2.calls = [] := by
  unfold server_on_read
  rw [if_pos h]
  dsimp only
  split_ifs <;> exact ⟨rfl, rfl, rfl, rfl, rfl, rfl⟩

/-- A run of positive reads, given as pairs `(size, now)`. -/
theorem reads_pos (ft : FloatText) (rs : List (Nat × timeval)) (st_h : lsquic_stream_ctx)
    (hpos : ∀ r ∈ rs, 0 < r.1) (hb : st_h.bytes_received < U64) :
    (reads ft st_h (rs.map (fun r => ((r.1 : Int), r.2)))).1.bytes_received =
      (st_h.bytes_received + (rs.map Prod.fst).sum) % U64 ∧
    (reads ft st_h (rs.map (fun r => ((r.1 : Int), r.2)))).1.result_buf = st_h.result_buf ∧
    (reads ft st_h (rs.map (fun r => ((r.1 : Int), r.2)))).1.result_len = st_h.result_len ∧
    (reads ft st_h (rs.map (fun r => ((r.1 : Int), r.2)))).1.result_off = st_h.result_off ∧
    (reads ft st_h (rs.map (fun r => ((r.1 : Int), r.2)))).1.start_time = st_h.start_time ∧
    ∀ o ∈ (reads ft st_h (rs.map (fun r => ((r.1 : Int), r.2)))).2, o.calls = [] := by
  induction rs generalizing st_h with
  | nil =>
    refine ⟨?_, rfl, rfl, rfl, rfl, ?_⟩
    · show st_h.bytes_received = (st_h.bytes_received + 0) % U64
      rw [Nat.add_zero, Nat.mod_eq_of_lt hb]
    · intro o ho
      simp [reads] at ho
  | cons r rs ih =>
    have hr : (0 : Int) < (r.1 : Int) := by
      have := hpos r (List.mem_cons_self _ _)
      omega
    obtain ⟨p1, p2, p3, p4, p5, p6⟩ := server_on_read_pos st_h (r.1 : Int) r.2 ft hr
    have hb1 : (server_on_read st_h (r.1 : Int) r.2 ft).1.bytes_received < U64 := by
      rw [p1]; exact Nat.mod_lt _ (by unfold U64; positivity)
    obtain ⟨q1, q2, q3, q4, q5, q6⟩ := ih (server_on_read st_h (r.1 : Int) r.2 ft).1
      (fun d hd => hpos d (List.mem_cons_of_mem _ hd)) hb1
    rw [List.map_cons, reads_cons]
    refine ⟨?_, by rw [q2, p2], by rw [q3, p3], by rw [q4, p4], by rw [q5, p5], ?_⟩
    · show (reads ft (server_on_read st_h (r.1 : Int) r.2 ft).1 _).1.bytes_received = _
      rw [q1, p1]
      simp only [add64, Int.toNat_ofNat, List.map_cons, List.sum_cons]
      rw [Nat.mod_add_mod, Nat.add_assoc]
    · intro o ho
      rcases List.mem_cons.mp ho with rfl | h2
      · exact p6
      · exact q6 o h2

end SpeedServer

namespace SpeedServer

/-- The end-of-stream read, field by field. -/
theorem server_on_read_eof (st_h : lsquic_stream_ctx) (now : timeval) (ft : FloatText) :
    (server_on_read st_h 0 now ft).1.bytes_received = st_h.bytes_received ∧
    (server_on_read st_h 0 now ft).1.result_buf =
      (snprintf st_h.result_buf 256 (result_text st_h.bytes_received ft)).1 ∧
    (server_on_read st_h 0 now ft).1.result_len = (result_text st_h.bytes_received ft).length ∧
    (server_on_read st_h 0 now ft).1.result_off = 0 ∧
    (server_on_read st_h 0 now ft).2.calls = [EngineCall.wantread 0, EngineCall.wantwrite 1] :=
  ⟨rfl, rfl, rfl, rfl, rfl⟩

/-- What `snprintf` stores: the text cut to `size - 1` characters. -/
theorem snprintf_take (buf text : List Char) (size : Nat) :
    (snprintf buf size text).1.take (text.take (size - 1)).length = text.take (size - 1) := by
  unfold snprintf
  dsimp only
  rw [List.append_assoc, List.take_left']
  rfl

/-- A head of the text that fits in `size - 1` characters is stored whole. -/
theorem snprintf_head (buf head tail : List Char) (size : Nat) (h : head.length ≤ size - 1) :
    (snprintf buf size (head ++ tail)).1.take head.length = head := by
  have h1 := snprintf_take buf (head ++ tail) size
  have h2 : head.length ≤ ((head ++ tail).take (size - 1)).length := by
    rw [List.length_take, List.length_append]; omega
  have h3 := congrArg (List.take head.length) h1
  rw [List.take_take, Nat.min_eq_left h2, List.take_take, Nat.min_eq_left h,
    List.take_left' rfl] at h3
  exact h3

theorem toDigits_length_u64 (n : Nat) (h : n < U64) : (Nat.toDigits 10 n).length ≤ 20 := by
  unfold Nat.toDigits
  exact Nat.toDigitsCore_length 10 (by decide) (n + 1) n 20
    (lt_of_lt_of_le h (by unfold U64; norm_num)) (by decide)

theorem result_text_split (b : Nat) (ft : FloatText) :
    result_text b ft = ("RESULT: bytes=".toList ++ Nat.toDigits 10 b) ++
      (" time=".toList ++ ft.time ++ "s speed=".toList ++ ft.speed ++ "Mbps\n".toList) := by
  unfold result_text
  simp only [List.append_assoc]

/-- The stored result starts with `RESULT: bytes=` and the decimal digits of the counter. -/
theorem result_head (buf : List Char) (b : Nat) (ft : FloatText) (hb : b < U64) :
    (snprintf buf 256 (result_text b ft)).1.take (14 + (Nat.toDigits 10 b).length) =
      "RESULT: bytes=".toList ++ Nat.toDigits 10 b := by
  have hd := toDigits_length_u64 b hb
  have hl : ("RESULT: bytes=".toList ++ Nat.toDigits 10 b).length =
      14 + (Nat.toDigits 10 b).length := by
    rw [List.length_append]; rfl
  rw [result_text_split, ← hl]
  exact snprintf_head buf _ _ 256 (by rw [hl]; omega)

end SpeedServer

namespace SpeedServer

/-- C6 (receiver transition to finishing).  While the reads are positive,
`server_on_read` issues no engine call (no interest flag changes), `result_len`
and `result_off` stay 0 and `result_buf` is untouched.  The read that returns 0 formats the
result, sets `result_off = 0`, and issues `wantread(0)` then `wantwrite(1)`;
the stored result starts with `RESULT: bytes=` followed by the decimal digits
of `bytes_received`. -/
theorem receiver_transition (ft : FloatText) (t0 te : timeval) (rs : List (Nat × timeval))
    (hpos : ∀ r ∈ rs, 0 < r.1 ∧ r.1 ≤ 16384) :
    (reads ft (server_on_new_stream t0).1 (rs.map (fun r => ((r.1 : Int), r.2)))).1.result_len = 0 ∧
    (reads ft (server_on_new_stream t0).1 (rs.map (fun r => ((r.1 : Int), r.2)))).1.result_off = 0 ∧
    (reads ft (server_on_new_stream t0).1 (rs.map (fun r => ((r.1 : Int), r.2)))).1.result_buf =
      List.replicate 256 NUL ∧
    (∀ o ∈ (reads ft (server_on_new_stream t0).1 (rs.map (fun r => ((r.1 : Int), r.2)))).2,
      o.calls = []) ∧
    (server_on_read (reads ft (server_on_new_stream t0).1
      (rs.map (fun r => ((r.1 : Int), r.2)))).1 0 te ft).2.calls =
        [EngineCall.wantread 0, EngineCall.wantwrite 1] ∧
    (server_on_read (reads ft (server_on_new_stream t0).1
      (rs.map (fun r => ((r.1 : Int), r.2)))).1 0 te ft).1.result_off = 0 ∧
    (server_on_read (reads ft (server_on_new_stream t0).1
      (rs.map (fun r => ((r.1 : Int), r.2)))).1 0 te ft).1.result_len =
        (result_text ((rs.map Prod.fst).sum % U64) ft).length ∧
    (server_on_read (reads ft (server_on_new_stream t0).1
      (rs.map (fun r => ((r.1 : Int), r.2)))).1 0 te ft).1.result_buf.take
        (14 + (Nat.toDigits 10 ((rs.map Prod.fst).sum % U64)).length) =
      "RESULT: bytes=".toList ++ Nat.toDigits 10 ((rs.map Prod.fst).sum % U64) := by
  obtain ⟨q1, q2, q3, q4, -, q6⟩ := reads_pos ft rs (server_on_new_stream t0).1
    (fun r hr => (hpos r hr).1) (show 0 < U64 by unfold U64; positivity)
  have q1' : (reads ft (server_on_new_stream t0).1
      (rs.map (fun r => ((r.1 : Int), r.2)))).1.bytes_received = (rs.map Prod.fst).sum % U64 := by
    rw [q1]; show (0 + _) % U64 = _; rw [Nat.zero_add]
  obtain ⟨-, p2, p3, p4, p5⟩ := server_on_read_eof (reads ft (server_on_new_stream t0).1
        (rs.map (fun r => ((r.1 : Int), r.2)))).1 te ft
  refine ⟨q3, q4, q2, q6, p5, p4, by rw [p3, q1'], ?_⟩
  rw [p2, q1']
  exact result_head _ _ ft (Nat.mod_lt _ (by unfold U64; positivity))

/-- Witness for C6: the reads 16384, 16384, 0 give a total of 32768 and a
result that starts with `RESULT: bytes=32768`. -/
theorem receiver_transition_witness :
    (server_on_read (reads ⟨"0.500".toList, "0.52".toList⟩ (server_on_new_stream ⟨0, 0⟩).1
      ([(16384, ⟨0, 1⟩), (16384, ⟨0, 2⟩)].map
        (fun r : Nat × timeval => ((r.1 : Int), r.2)))).1 0 ⟨0, 500000⟩
        ⟨"0.500".toList, "0.52".toList⟩).1.result_buf.take 19 =
      "RESULT: bytes=32768".toList :=
  (receiver_transition ⟨"0.500".toList, "0.52".toList⟩ ⟨0, 0⟩ ⟨0, 500000⟩
    [(16384, ⟨0, 1⟩), (16384, ⟨0, 2⟩)]
    (by
      intro r hr
      simp only [List.mem_cons, List.mem_singleton, List.not_mem_nil, or_false] at hr
      rcases hr with rfl | rfl <;> decide)).2.2.2.2.2.2.2

end SpeedServer

namespace SpeedServer

/-! ## The progress sample of the server -/

end SpeedServer

namespace SpeedServer

end SpeedServer

namespace Ieee

/-! ## Bounds on binary64 rounding -/

theorem round_half_even_ge (y : ℚ) (N : ℕ) (h : (N : ℚ) ≤ y) : N ≤ round_half_even y := by
  have hf : N ≤ ⌊y⌋₊ := Nat.le_floor h
  unfold round_half_even
  split_ifs <;> omega

theorem round_half_even_le (y : ℚ) (N : ℕ) (hy : 0 ≤ y) (h : y ≤ (N : ℚ)) :
    round_half_even y ≤ N := by
  have hf : ⌊y⌋₊ ≤ N := Nat.floor_le_of_le h
  have hfl : (⌊y⌋₊ : ℚ) ≤ y := Nat.floor_le hy
  have hstep : (0 : ℚ) < y - (⌊y⌋₊ : ℚ) → ⌊y⌋₊ + 1 ≤ N := by
    intro hpos
    have h1 : (⌊y⌋₊ : ℚ) < (N : ℚ) := by linarith
    have h2 : ⌊y⌋₊ < N := by exact_mod_cast h1
    omega
  unfold round_half_even
  split_ifs with h1 h2 h3
  · exact hf
  · exact hstep (by linarith)
  · exact hf
  · exact hstep (by linarith)

theorem ulp_pos (m : ℚ) : 0 < ulp m := by
  unfold ulp
  positivity

/-- What `round` gives stays below a bound that lies on the grid of the binade. -/
theorem round_le_grid (m c : ℚ) (N : ℕ) (hm : 0 < m) (hmc : m ≤ c) (hc : c = (N : ℚ) * ulp m)
    (hlt : c < (2 : ℚ) ^ (1024 : ℤ)) :
    round m = Mag.fin ((round_half_even (m / ulp m) : ℚ) * ulp m) ∧
      (round_half_even (m / ulp m) : ℚ) * ulp m ≤ c := by
  have hu := ulp_pos m
  have hy : m / ulp m ≤ (N : ℚ) := by
    rw [div_le_iff₀ hu, ← hc]; exact hmc
  have hk := round_half_even_le (m / ulp m) N (by positivity) hy
  have hr : (round_half_even (m / ulp m) : ℚ) * ulp m ≤ c := by
    rw [hc]
    exact mul_le_mul_of_nonneg_right (by exact_mod_cast hk) (le_of_lt hu)
  refine ⟨?_, hr⟩
  unfold round
  rw [if_neg (not_le.mpr hm), if_neg (not_le.mpr (lt_of_le_of_lt hr hlt))]

/-- What `round` gives stays above a bound that lies on the grid of the binade. -/
theorem round_ge_grid (m c : ℚ) (N : ℕ) (hcm : c ≤ m) (hc : c = (N : ℚ) * ulp m) :
    c ≤ (round_half_even (m / ulp m) : ℚ) * ulp m := by
  have hu := ulp_pos m
  have hy : (N : ℚ) ≤ m / ulp m := by
    rw [le_div_iff₀ hu, ← hc]; exact hcm
  have hk := round_half_even_ge (m / ulp m) N hy
  rw [hc]
  exact mul_le_mul_of_nonneg_right (by exact_mod_cast hk) (le_of_lt hu)

theorem log_le_of_le_zpow (m : ℚ) (b : ℤ) (hm : 0 < m) (h : m ≤ (2 : ℚ) ^ b) :
    Int.log 2 m ≤ b := by
  have h1 := Int.log_mono_right (b := 2) hm h
  have h2 : Int.log 2 ((2 : ℚ) ^ b) = b := by
    have := Int.log_zpow (R := ℚ) (b := 2) (by norm_num) b
    simpa using this
  rw [h2] at h1
  exact h1

theorem le_log_of_zpow_le (m : ℚ) (a : ℤ) (hm : 0 < m) (h : (2 : ℚ) ^ a ≤ m) :
    a ≤ Int.log 2 m := by
  have := (Int.zpow_le_iff_le_log (R := ℚ) (b := 2) (by norm_num) (x := a) hm).mp
    (by simpa using h)
  exact this

theorem zpow_log_le (m : ℚ) (hm : 0 < m) : (2 : ℚ) ^ (Int.log 2 m) ≤ m := by
  have := Int.zpow_log_le_self (R := ℚ) (b := 2) (by norm_num) hm
  simpa using this

theorem binade_le (m : ℚ) (b : ℤ) (hm : 0 < m) (h : m ≤ (2 : ℚ) ^ b) (hb : -1022 ≤ b) :
    binade m ≤ b := by
  unfold binade
  exact max_le (log_le_of_le_zpow m b hm h) hb

/-- A power of two at or above the spacing of the binade lies on its grid. -/
theorem zpow_on_grid (m : ℚ) (k : ℤ) (h : binade m - 52 ≤ k) :
    (2 : ℚ) ^ k = ((2 ^ (k - (binade m - 52)).toNat : ℕ) : ℚ) * ulp m := by
  have ht : ((k - (binade m - 52)).toNat : ℤ) = k - (binade m - 52) :=
    Int.toNat_of_nonneg (by omega)
  unfold ulp
  rw [Nat.cast_pow, Nat.cast_ofNat, ← zpow_natCast, ht, ← zpow_add₀ (by norm_num)]
  congr 1
  ring

/-- Rounding keeps a magnitude between two powers of two that bracket it. -/
theorem round_zpow_bounds (m : ℚ) (a b : ℤ) (ha : -1022 ≤ a) (hb : b ≤ 1023)
    (h1 : (2 : ℚ) ^ a ≤ m) (h2 : m ≤ (2 : ℚ) ^ b) :
    ∃ r, round m = Mag.fin r ∧ (2 : ℚ) ^ a ≤ r ∧ r ≤ (2 : ℚ) ^ b := by
  have hm : 0 < m := lt_of_lt_of_le (by positivity) h1
  have hea := le_log_of_zpow_le m a hm h1
  have heb := log_le_of_le_zpow m b hm h2
  have hbin : binade m = Int.log 2 m := by
    unfold binade; exact max_eq_left (by omega)
  obtain ⟨e1, e2⟩ := round_le_grid m ((2 : ℚ) ^ b) _ hm h2
    (zpow_on_grid m b (by rw [hbin]; omega))
    (zpow_lt_zpow_right₀ (by norm_num) (by omega))
  have e3 := round_ge_grid m ((2 : ℚ) ^ (Int.log 2 m)) _ (zpow_log_le m hm)
    (zpow_on_grid m (Int.log 2 m) (by rw [hbin]; omega))
  refine ⟨_, e1, le_trans ?_ e3, e2⟩
  exact zpow_le_zpow_right₀ (by norm_num) hea

/-- Rounding keeps a positive magnitude at or below a power of two above it. -/
theorem round_le_zpow (m : ℚ) (b : ℤ) (hb1 : -1022 ≤ b) (hb : b ≤ 1023) (hm : 0 < m)
    (h2 : m ≤ (2 : ℚ) ^ b) :
    ∃ r, round m = Mag.fin r ∧ 0 ≤ r ∧ r ≤ (2 : ℚ) ^ b := by
  have hbin := binade_le m b hm h2 hb1
  obtain ⟨e1, e2⟩ := round_le_grid m ((2 : ℚ) ^ b) _ hm h2
    (zpow_on_grid m b (by omega))
    (zpow_lt_zpow_right₀ (by norm_num) (by omega))
  exact ⟨_, e1, by have := ulp_pos m; positivity, e2⟩

/-- Rounding keeps a magnitude at or below a dyadic bound `K / 2 ^ j` above it,
when the spacing of the binade divides that bound. -/
theorem round_le_dyadic (m : ℚ) (K j : ℕ) (hm : 0 < m) (h : m ≤ (K : ℚ) / 2 ^ j)
    (hbin : binade m + j ≤ 52) (hlt : (K : ℚ) / 2 ^ j < (2 : ℚ) ^ (1024 : ℤ)) :
    ∃ r, round m = Mag.fin r ∧ r ≤ (K : ℚ) / 2 ^ j := by
  have ht : ((52 - binade m - j).toNat : ℤ) = 52 - binade m - j :=
    Int.toNat_of_nonneg (by omega)
  have hc : (K : ℚ) / 2 ^ j = ((K * 2 ^ (52 - binade m - j).toNat : ℕ) : ℚ) * ulp m := by
    unfold ulp
    rw [Nat.cast_mul, Nat.cast_pow, Nat.cast_ofNat, ← zpow_natCast (2 : ℚ)
      ((52 - binade m - j).toNat), ht, mul_assoc, ← zpow_add₀ (by norm_num), div_eq_mul_inv,
      ← zpow_natCast (2 : ℚ) j, ← zpow_neg]
    congr 2
    ring
  obtain ⟨e1, e2⟩ := round_le_grid m _ _ hm h hc hlt
  exact ⟨_, e1, e2⟩

theorem round_zero : round 0 = Mag.fin 0 := by
  unfold round
  rw [if_pos (le_refl _)]

end Ieee

namespace Ieee

/-! ## The magnitudes of `elapsed` and `mbps` -/

theorem two_zpow_neg20 : (2 : ℚ) ^ (-20 : ℤ) = 1 / 1048576 := by norm_num

theorem mag_fin_inj {a b : ℚ} (h : Mag.fin a = Mag.fin b) : a = b := Mag.fin.inj h

/-- The conversion of a microsecond difference and its division by `1000000.0`. -/
theorem usec_quot (u : ℤ) (hu : |u| ≤ 999999) :
    ∃ r, div (of_int u) (lit 1000000) = ⟨decide (u < 0), Mag.fin r⟩ ∧
      (r = 0 ∨ ((1 : ℚ) / 1048576 ≤ r ∧ r ≤ 1048575 / 1048576)) := by
  by_cases h0 : u = 0
  · subst h0
    refine ⟨0, ?_, Or.inl rfl⟩
    simp [div, of_int, lit, round_zero]
  · have hpos : (1 : ℚ) ≤ |(u : ℚ)| := by
      have : (1 : ℤ) ≤ |u| := Int.one_le_abs h0
      exact_mod_cast this
    have hle : |(u : ℚ)| ≤ 999999 := by exact_mod_cast hu
    obtain ⟨r2, e2, l2, -⟩ := round_zpow_bounds |(u : ℚ)| 0 20 (by norm_num) (by norm_num)
      (by simpa using hpos) (le_trans hle (by norm_num))
    have hb2 : binade |(u : ℚ)| ≤ 20 :=
      binade_le _ 20 (by linarith) (le_trans hle (by norm_num)) (by norm_num)
    obtain ⟨r2', e2', u2⟩ := round_le_dyadic |(u : ℚ)| 999999 0 (by linarith)
      (by simpa using hle) (by simpa using (by omega : binade |(u : ℚ)| ≤ 52))
      (by norm_num)
    have hr : r2' = r2 := mag_fin_inj (e2'.symm.trans e2)
    rw [hr] at u2
    have l2' : (1 : ℚ) ≤ r2 := by simpa using l2
    have u2' : r2 ≤ 999999 := by simpa using u2
    have hq1 : (2 : ℚ) ^ (-20 : ℤ) ≤ r2 / 1000000 := by
      rw [two_zpow_neg20, le_div_iff₀ (by norm_num)]; linarith
    have hq2 : r2 / 1000000 ≤ (2 : ℚ) ^ (0 : ℤ) := by
      rw [div_le_iff₀ (by norm_num)]; norm_num; linarith
    have hq3 : r2 / 1000000 ≤ ((1048575 : ℕ) : ℚ) / 2 ^ 20 := by
      rw [div_le_div_iff₀ (by norm_num) (by norm_num)]; norm_num; linarith
    have hqpos : (0 : ℚ) < r2 / 1000000 := by positivity
    obtain ⟨r3, e3, l3, -⟩ := round_zpow_bounds (r2 / 1000000) (-20) 0 (by norm_num)
      (by norm_num) hq1 hq2
    have hb3 : binade (r2 / 1000000) ≤ 0 := binade_le _ 0 hqpos hq2 (by norm_num)
    obtain ⟨r3', e3', u3⟩ := round_le_dyadic (r2 / 1000000) 1048575 20 hqpos hq3
      (by omega) (by norm_num)
    have hr3 : r3' = r3 := mag_fin_inj (e3'.symm.trans e3)
    rw [hr3] at u3
    refine ⟨r3, ?_, Or.inr ⟨by rw [← two_zpow_neg20]; exact l3, by norm_num at u3; linarith⟩⟩
    simp only [div, of_int, lit, e2]
    rw [if_neg (by norm_num)]
    simp [e3]

end Ieee

namespace Ieee

/-- The conversion of a difference of seconds. -/
theorem sec_conv (d : ℤ) (hd : |d| ≤ 2 ^ 63) :
    ∃ r, of_int d = ⟨decide (d < 0), Mag.fin r⟩ ∧
      (r = 0 ∨ r = 1 ∨ ((2 : ℚ) ≤ r ∧ r ≤ 2 ^ 63)) := by
  have hle : |(d : ℚ)| ≤ 2 ^ 63 := by exact_mod_cast hd
  by_cases h0 : d = 0
  · subst h0
    exact ⟨0, by simp [of_int, round_zero], Or.inl rfl⟩
  · by_cases h1 : |d| = 1
    · have h1q : |(d : ℚ)| = 1 := by exact_mod_cast h1
      obtain ⟨r, e, l, u⟩ := round_zpow_bounds |(d : ℚ)| 0 0 (by norm_num) (by norm_num)
        (by rw [h1q]; norm_num) (by rw [h1q]; norm_num)
      refine ⟨r, by simp [of_int, e], Or.inr (Or.inl ?_)⟩
      norm_num at l u
      linarith
    · have h2 : (2 : ℤ) ≤ |d| := by
        have : (1 : ℤ) ≤ |d| := Int.one_le_abs h0
        omega
      have h2q : (2 : ℚ) ≤ |(d : ℚ)| := by exact_mod_cast h2
      obtain ⟨r, e, l, u⟩ := round_zpow_bounds |(d : ℚ)| 1 63 (by norm_num) (by norm_num)
        (by norm_num; exact h2q) (by norm_num; norm_num at hle; exact hle)
      refine ⟨r, by simp [of_int, e], Or.inr (Or.inr ⟨?_, ?_⟩)⟩
      · norm_num at l; exact l
      · norm_num at u ⊢; exact u

theorem abs_signed (s : Bool) (r : ℚ) (hr : 0 ≤ r) : |signed s r| = r := by
  unfold signed
  cases s
  · simpa using hr
  · simpa using hr

/-- The sum of a converted difference of seconds and a converted fraction of a
second is zero or lies between `2 ^ (-20)` and `2 ^ 64` in magnitude. -/
theorem abs_sum_bounds (x y : ℚ)
    (hx : |x| = 0 ∨ |x| = 1 ∨ ((2 : ℚ) ≤ |x| ∧ |x| ≤ 2 ^ 63))
    (hy : |y| = 0 ∨ ((1 : ℚ) / 1048576 ≤ |y| ∧ |y| ≤ 1048575 / 1048576))
    (hs : x + y ≠ 0) :
    (1 : ℚ) / 1048576 ≤ |x + y| ∧ |x + y| ≤ 2 ^ 63 + 1 := by
  have hxy : |x + y| ≤ |x| + |y| := abs_add x y
  have hyx : |x| - |y| ≤ |x + y| := by
    have := abs_sub_abs_le_abs_sub x (-y)
    simpa using this
  have hyx' : |y| - |x| ≤ |x + y| := by
    have := abs_sub_abs_le_abs_sub y (-x)
    simpa [add_comm] using this
  have hp : (0 : ℚ) < 2 ^ 63 := by positivity
  rcases hx with hx | hx | ⟨hx1, hx2⟩
  · rcases hy with hy | ⟨hy1, hy2⟩
    · exfalso
      apply hs
      rw [abs_eq_zero.mp hx, abs_eq_zero.mp hy, add_zero]
    · constructor <;> linarith
  · rcases hy with hy | ⟨hy1, hy2⟩
    · constructor <;> linarith
    · constructor <;> linarith
  · rcases hy with hy | ⟨hy1, hy2⟩
    · constructor <;> linarith
    · constructor <;> linarith

/-- The magnitude of the `double` `elapsed`: zero, or between `2 ^ (-20)` and `2 ^ 64`. -/
theorem elapsed_mag (d u : ℤ) (hd : |d| ≤ 2 ^ 63) (hu : |u| ≤ 999999) :
    ∃ e, (add (of_int d) (div (of_int u) (lit 1000000))).mag = Mag.fin e ∧
      (e = 0 ∨ ((1 : ℚ) / 1048576 ≤ e ∧ e ≤ 2 ^ 64)) := by
  obtain ⟨r1, e1, c1⟩ := sec_conv d hd
  obtain ⟨r3, e3, c3⟩ := usec_quot u hu
  have hr1 : 0 ≤ r1 := by
    rcases c1 with h | h | ⟨h, -⟩ <;> linarith
  have hr3 : 0 ≤ r3 := by
    rcases c3 with h | ⟨h, -⟩ <;> linarith
  rw [e1, e3]
  simp only [add]
  by_cases hs : signed (decide (d < 0)) r1 + signed (decide (u < 0)) r3 = 0
  · rw [if_pos hs]
    exact ⟨0, rfl, Or.inl rfl⟩
  · rw [if_neg hs]
    have hb := abs_sum_bounds _ _
      (by rw [abs_signed _ _ hr1]; exact c1) (by rw [abs_signed _ _ hr3]; exact c3) hs
    obtain ⟨r, e, l, u⟩ := round_zpow_bounds
      |signed (decide (d < 0)) r1 + signed (decide (u < 0)) r3| (-20) 64
      (by norm_num) (by norm_num) (by rw [two_zpow_neg20]; exact hb.1)
      (le_trans hb.2 (by norm_num))
    refine ⟨r, e, Or.inr ⟨by rw [← two_zpow_neg20]; exact l, by norm_num at u ⊢; exact u⟩⟩

end Ieee

namespace Ieee

/-- The magnitude of `elapsed * 1000000.0`: zero exactly when `elapsed` is
zero, and at least `1 / 2` otherwise. -/
theorem den_mag (el : Double) (e : ℚ) (he : el.mag = Mag.fin e)
    (hc : e = 0 ∨ ((1 : ℚ) / 1048576 ≤ e ∧ e ≤ 2 ^ 64)) :
    ∃ r, (mul el (lit 1000000)).mag = Mag.fin r ∧ (r = 0 ∨ (1 : ℚ) / 2 ≤ r) := by
  simp only [mul, he, lit]
  rcases hc with h0 | ⟨h1, h2⟩
  · subst h0
    exact ⟨0, by simp [round_zero], Or.inl rfl⟩
  · obtain ⟨r, er, l, -⟩ := round_zpow_bounds (e * 1000000) (-1) 84 (by norm_num) (by norm_num)
      (by norm_num; linarith) (by norm_num; norm_num at h2; linarith)
    refine ⟨r, ?_, Or.inr (by norm_num at l; linarith)⟩
    simp only [Nat.cast_ofNat]
    exact er

/-- The magnitude of `bytes_received * 8.0`: finite, at most `2 ^ 67`. -/
theorem num_mag (B : ℕ) (hB : B < 2 ^ 64) :
    ∃ r, (mul (of_nat B) (lit 8)).mag = Mag.fin r ∧ 0 ≤ r ∧ r ≤ 2 ^ 67 := by
  simp only [mul, of_nat, lit]
  by_cases h0 : B = 0
  · subst h0
    exact ⟨0, by simp [round_zero], le_refl _, by positivity⟩
  · have h1 : (1 : ℚ) ≤ (B : ℚ) := by exact_mod_cast Nat.one_le_iff_ne_zero.mpr h0
    have h2 : (B : ℚ) ≤ 2 ^ 64 := by exact_mod_cast le_of_lt hB
    obtain ⟨r1, e1, l1, u1⟩ := round_zpow_bounds (B : ℚ) 0 64 (by norm_num) (by norm_num)
      (by simpa using h1) (by norm_num; norm_num at h2; exact h2)
    norm_num at l1 u1
    obtain ⟨r2, e2, l2, u2⟩ := round_zpow_bounds (r1 * 8) 3 67 (by norm_num) (by norm_num)
      (by norm_num; linarith) (by norm_num; linarith)
    refine ⟨r2, ?_, ?_, ?_⟩
    · rw [e1]
      simp only [Nat.cast_ofNat]
      exact e2
    · norm_num at l2; linarith
    · norm_num at u2 ⊢; exact u2

/-- The magnitude of the `double` `mbps`: NaN, infinity, or finite and at most `2 ^ 68`. -/
theorem mbps_mag (num den : Double) (n r : ℚ) (hn : num.mag = Mag.fin n) (hr : den.mag = Mag.fin r)
    (hn0 : 0 ≤ n) (hn1 : n ≤ 2 ^ 67) (hc : r = 0 ∨ (1 : ℚ) / 2 ≤ r) :
    (div num den).mag = Mag.nan ∨ (div num den).mag = Mag.inf ∨
      ∃ q, (div num den).mag = Mag.fin q ∧ 0 ≤ q ∧ q ≤ 2 ^ 68 := by
  simp only [div, hn, hr]
  rcases hc with h0 | h1
  · rw [if_pos h0]
    by_cases hz : n = 0
    · rw [if_pos hz]; exact Or.inl rfl
    · rw [if_neg hz]; exact Or.inr (Or.inl rfl)
  · have hrpos : 0 < r := by linarith
    rw [if_neg (ne_of_gt hrpos)]
    refine Or.inr (Or.inr ?_)
    by_cases hz : n = 0
    · subst hz
      exact ⟨0, by simp [round_zero], le_refl _, by positivity⟩
    · have hnpos : 0 < n := lt_of_le_of_ne hn0 (Ne.symm hz)
      have hq : n / r ≤ (2 : ℚ) ^ (68 : ℤ) := by
        rw [div_le_iff₀ hrpos]
        norm_num
        norm_num at hn1
        nlinarith
      obtain ⟨q, eq, l, u⟩ := round_le_zpow (n / r) 68 (by norm_num) (by norm_num)
        (by positivity) hq
      exact ⟨q, eq, l, by norm_num at u ⊢; exact u⟩

end Ieee

namespace Ieee

/-! ## The length of what `%.pf` writes -/

theorem toDigits_length_le (n D : ℕ) (hD : 0 < D) (h : n < 10 ^ D) :
    (Nat.toDigits 10 n).length ≤ D := by
  unfold Nat.toDigits
  exact Nat.toDigitsCore_length 10 (by decide) (n + 1) n D h hD

theorem frac_digits_length (p n : ℕ) (hp : 0 < p) (h : n < 10 ^ p) :
    (frac_digits p n).length = p := by
  have hl := toDigits_length_le n p hp h
  unfold frac_digits
  rw [List.length_append, List.length_replicate]
  omega

theorem fmt_mag_fin_length (p D M : ℕ) (m : ℚ) (hp : 0 < p) (hD : 0 < D) (hm0 : 0 ≤ m)
    (hm : m * 10 ^ p ≤ (M : ℚ)) (hM : M / 10 ^ p < 10 ^ D) :
    (fmt_mag p (Mag.fin m)).length ≤ D + 1 + p := by
  have hn : round_half_even (m * 10 ^ p) ≤ M :=
    round_half_even_le _ M (by positivity) hm
  have h1 : round_half_even (m * 10 ^ p) / 10 ^ p < 10 ^ D :=
    lt_of_le_of_lt (Nat.div_le_div_right hn) hM
  have h2 : round_half_even (m * 10 ^ p) % 10 ^ p < 10 ^ p := Nat.mod_lt _ (by positivity)
  have l1 := toDigits_length_le _ D hD h1
  have l2 := frac_digits_length p _ hp h2
  simp only [fmt_mag, List.length_append, List.length_singleton, l2]
  omega

theorem fmt_f_length (p L : ℕ) (d : Double) (h : (fmt_mag p d.mag).length ≤ L) :
    (fmt_f p d).length ≤ L + 1 := by
  unfold fmt_f
  rw [List.length_append]
  split_ifs
  · simp only [List.length_singleton]; omega
  · simp only [List.length_nil]; omega

end Ieee

namespace SpeedServer

/-- The text of `elapsed` under `%.3f` has at most 25 characters. -/
theorem time_text_length (st_h : lsquic_stream_ctx) (now : timeval)
    (hsec : |now.tv_sec - st_h.start_time.tv_sec| ≤ 2 ^ 63)
    (husec : |now.tv_usec - st_h.start_time.tv_usec| ≤ 999999) :
    (float_text st_h now).time.length ≤ 25 := by
  obtain ⟨e, he, hc⟩ := Ieee.elapsed_mag _ _ hsec husec
  have he0 : 0 ≤ e := by
    rcases hc with h | ⟨h, -⟩ <;> linarith
  have he1 : e ≤ 2 ^ 64 := by
    rcases hc with h | ⟨-, h⟩
    · rw [h]; positivity
    · exact h
  show (Ieee.fmt_f 3 (elapsed st_h.start_time now)).length ≤ 24 + 1
  apply Ieee.fmt_f_length
  show (Ieee.fmt_mag 3 (Ieee.add _ _).mag).length ≤ 24
  rw [he]
  exact Ieee.fmt_mag_fin_length 3 20 (2 ^ 64 * 1000) e (by norm_num) (by norm_num) he0
    (by push_cast; nlinarith) (by norm_num)

/-- The text of `mbps` under `%.2f` has at most 25 characters. -/
theorem speed_text_length (st_h : lsquic_stream_ctx) (now : timeval)
    (hb : st_h.bytes_received < U64)
    (hsec : |now.tv_sec - st_h.start_time.tv_sec| ≤ 2 ^ 63)
    (husec : |now.tv_usec - st_h.start_time.tv_usec| ≤ 999999) :
    (float_text st_h now).speed.length ≤ 25 := by
  obtain ⟨e, he, hc⟩ := Ieee.elapsed_mag _ _ hsec husec
  obtain ⟨r, hr, hrc⟩ := Ieee.den_mag _ e he hc
  obtain ⟨n, hn, hn0, hn1⟩ := Ieee.num_mag st_h.bytes_received hb
  have hm := Ieee.mbps_mag _ _ n r hn hr hn0 hn1 hrc
  show (Ieee.fmt_f 2 (mbps st_h.bytes_received (elapsed st_h.start_time now))).length ≤ 24 + 1
  apply Ieee.fmt_f_length
  show (Ieee.fmt_mag 2 (Ieee.div _ _).mag).length ≤ 24
  unfold elapsed
  rcases hm with h | h | ⟨q, h, hq0, hq1⟩
  · rw [h]; decide
  · rw [h]; decide
  · rw [h]
    exact Ieee.fmt_mag_fin_length 2 21 (2 ^ 68 * 100) q (by norm_num) (by norm_num) hq0
      (by push_cast; nlinarith) (by norm_num)

end SpeedServer

namespace SpeedServer

theorem result_text_length (b : Nat) (ft : FloatText) :
    (result_text b ft).length =
      14 + (Nat.toDigits 10 b).length + 6 + ft.time.length + 8 + ft.speed.length + 5 := by
  unfold result_text
  simp only [List.length_append]
  rfl

theorem snprintf_length (buf text : List Char) (h : buf.length = 256) :
    (snprintf buf 256 text).1.length = 256 := by
  unfold snprintf
  simp only [List.length_append, List.length_take, List.length_drop, List.length_singleton, h]
  omega

/-- C7 (result length bound).  For every 64-bit `bytes_received` and every
pair of start and end timestamps (microsecond fields in `0 .. 999999`, the
difference of the seconds inside `long`), the `result_len` that
`server_on_read` stores at the end of the stream is at most 256, the size of
`result_buf` (it is at most 103); the buffer keeps its 256 bytes, and for
every offset up to `result_len` the range `server_on_write` passes to the
engine lies inside `result_buf`. -/
theorem result_len_bound (st_h : lsquic_stream_ctx) (now : timeval)
    (hb : st_h.bytes_received < U64) (hbuf : st_h.result_buf.length = 256)
    (hsec : -(2 ^ 63) ≤ now.tv_sec - st_h.start_time.tv_sec ∧
      now.tv_sec - st_h.start_time.tv_sec < 2 ^ 63)
    (hus : 0 ≤ st_h.start_time.tv_usec ∧ st_h.start_time.tv_usec ≤ 999999)
    (hun : 0 ≤ now.tv_usec ∧ now.tv_usec ≤ 999999) :
    (server_on_read st_h 0 now (float_text st_h now)).1.result_len ≤ 256 ∧
    (server_on_read st_h 0 now (float_text st_h now)).1.result_len ≤ 103 ∧
    (server_on_read st_h 0 now (float_text st_h now)).1.result_buf.length = 256 ∧
    ∀ off, off ≤ (server_on_read st_h 0 now (float_text st_h now)).1.result_len →
      (offered { (server_on_read st_h 0 now (float_text st_h now)).1 with result_off := off }).isSome
        = true := by
  have hsec' : |now.tv_sec - st_h.start_time.tv_sec| ≤ 2 ^ 63 := by
    rw [abs_le]; constructor <;> omega
  have husec' : |now.tv_usec - st_h.start_time.tv_usec| ≤ 999999 := by
    rw [abs_le]; constructor <;> omega
  have ht := time_text_length st_h now hsec' husec'
  have hs := speed_text_length st_h now hb hsec' husec'
  have hd := toDigits_length_u64 st_h.bytes_received hb
  obtain ⟨-, p2, p3, -, -⟩ := server_on_read_eof st_h now (float_text st_h now)
  have hlen : (server_on_read st_h 0 now (float_text st_h now)).1.result_len ≤ 103 := by
    rw [p3, result_text_length]; omega
  have hbl : (server_on_read st_h 0 now (float_text st_h now)).1.result_buf.length = 256 := by
    rw [p2]; exact snprintf_length _ _ hbuf
  refine ⟨by omega, hlen, hbl, ?_⟩
  intro off hoff
  have hsub : sub64 (server_on_read st_h 0 now (float_text st_h now)).1.result_len off =
      (server_on_read st_h 0 now (float_text st_h now)).1.result_len - off :=
    sub64_of_le hoff (by unfold U64; omega)
  unfold offered
  simp only [hsub, hbl]
  rw [if_pos (by omega)]
  rfl

/-- Witness for C7: `2 ^ 64 - 1` bytes received in one microsecond. -/
theorem result_len_bound_witness :
    (server_on_read
      { (server_on_new_stream ⟨100, 250000⟩).1 with bytes_received := 18446744073709551615 }
      0 ⟨100, 250001⟩
      (float_text
        { (server_on_new_stream ⟨100, 250000⟩).1 with bytes_received := 18446744073709551615 }
        ⟨100, 250001⟩)).1.result_len ≤ 256 :=
  (result_len_bound
    { (server_on_new_stream ⟨100, 250000⟩).1 with bytes_received := 18446744073709551615 }
    ⟨100, 250001⟩ (by norm_num [U64]) (List.length_replicate _ _)
    (by constructor <;> norm_num [server_on_new_stream])
    (by constructor <;> norm_num [server_on_new_stream])
    (by constructor <;> norm_num)).1

end SpeedServer

namespace SpeedServer

/-! ## The connection counter for any configured value -/

end SpeedServer

namespace SpeedServer

/-! ## Sending the result back -/

theorem writes_cons (st_h : lsquic_stream_ctx) (n : Nat) (ns : List Nat) :
    writes st_h (n :: ns) =
      ((writes (server_on_write st_h (n : Int)).1 ns).1,
        { off := st_h.result_off
          offered := offered st_h
          accepted := ((offered st_h).getD []).take n
          calls := (server_on_write st_h (n : Int)).2.calls } ::
          (writes (server_on_write st_h (n : Int)).1 ns).2) := rfl

/-- What `server_on_write` passes to the engine while the offset is inside the result. -/
theorem offered_tail (st_h : lsquic_stream_ctx) (hbuf : st_h.result_buf.length = 256)
    (hL : st_h.result_len ≤ 256) (hoff : st_h.result_off ≤ st_h.result_len) :
    offered st_h =
      some ((st_h.result_buf.drop st_h.result_off).take (st_h.result_len - st_h.result_off)) := by
  unfold offered
  dsimp only
  rw [sub64_of_le hoff (by unfold U64; omega), if_pos (by omega)]

/-- One call of `server_on_write` in which the engine takes `n` of the bytes left. -/
theorem server_on_write_step (st_h : lsquic_stream_ctx) (n : Nat) (hL : st_h.result_len ≤ 256)
    (hn : 0 < n) (hle : st_h.result_off + n ≤ st_h.result_len) :
    (server_on_write st_h (n : Int)).1 = { st_h with result_off := st_h.result_off + n } ∧
    (server_on_write st_h (n : Int)).2.calls =
      if st_h.result_off + n = st_h.result_len then
        [EngineCall.wantwrite 0, EngineCall.shutdown 1] else [] := by
  have ha : add64 st_h.result_off n = st_h.result_off + n :=
    add64_of_lt (by unfold U64; omega)
  unfold server_on_write
  rw [if_pos (by omega)]
  simp only [Int.toNat_ofNat, ha]
  by_cases h : st_h.result_off + n = st_h.result_len
  · rw [if_pos (by omega), if_pos h]
    exact ⟨rfl, rfl⟩
  · rw [if_neg (by omega), if_neg h]
    exact ⟨rfl, rfl⟩

end SpeedServer

namespace SpeedServer

/-- A run of `server_on_write` calls from any offset inside the result. -/
theorem writes_spec (ns : List Nat) (st_h : lsquic_stream_ctx)
    (hbuf : st_h.result_buf.length = 256) (hL : st_h.result_len ≤ 256)
    (hoff : st_h.result_off ≤ st_h.result_len)
    (hok : accepts_ok st_h.result_off st_h.result_len ns) :
    (writes st_h ns).1 = { st_h with result_off := st_h.result_off + ns.sum } ∧
    st_h.result_off + ns.sum ≤ st_h.result_len ∧
    ((writes st_h ns).2.map WriteStep.accepted).flatten =
      (st_h.result_buf.drop st_h.result_off).take ns.sum ∧
    ∀ e ∈ (writes st_h ns).2,
      e.offered = some ((st_h.result_buf.drop e.off).take (st_h.result_len - e.off)) ∧
      0 < e.accepted.length ∧ e.off + e.accepted.length ≤ st_h.result_len ∧
      e.calls = if e.off + e.accepted.length = st_h.result_len then
        [EngineCall.wantwrite 0, EngineCall.shutdown 1] else [] := by
  induction ns generalizing st_h with
  | nil =>
    refine ⟨rfl, by simpa using hoff, by simp [writes], ?_⟩
    intro e he
    simp [writes] at he
  | cons n ns ih =>
    obtain ⟨hn, hle, hrest⟩ := hok
    obtain ⟨s1, s2⟩ := server_on_write_step st_h n hL hn hle
    have hof := offered_tail st_h hbuf hL hoff
    have hacc : ((offered st_h).getD []).take n = (st_h.result_buf.drop st_h.result_off).take n := by
      rw [hof, Option.getD_some, List.take_take, Nat.min_eq_left (by omega)]
    have hlen : ((st_h.result_buf.drop st_h.result_off).take n).length = n := by
      rw [List.length_take, List.length_drop, hbuf]; omega
    obtain ⟨a, b, c, d⟩ := ih { st_h with result_off := st_h.result_off + n } hbuf hL hle hrest
    rw [writes_cons, s1, s2, hacc]
    refine ⟨?_, ?_, ?_, ?_⟩
    · rw [a]
      show ({ st_h with result_off := st_h.result_off + n + ns.sum } : lsquic_stream_ctx) = _
      rw [List.sum_cons, Nat.add_assoc]
    · rw [List.sum_cons]
      have b' : st_h.result_off + n + ns.sum ≤ st_h.result_len := b
      omega
    · rw [List.map_cons, List.flatten_cons, c, List.sum_cons, List.take_add]
      show _ ++ (List.drop (st_h.result_off + n) st_h.result_buf).take ns.sum = _
      rw [List.drop_drop]
    · intro e he
      rcases List.mem_cons.mp he with rfl | he2
      · refine ⟨hof, ?_, ?_, ?_⟩
        · show 0 < ((st_h.result_buf.drop st_h.result_off).take n).length
          rw [hlen]; exact hn
        · show st_h.result_off + ((st_h.result_buf.drop st_h.result_off).take n).length ≤ _
          rw [hlen]; exact hle
        · show _ = if st_h.result_off +
            ((st_h.result_buf.drop st_h.result_off).take n).length = st_h.result_len then _ else _
          rw [hlen]
      · exact d e he2

/-- C13 (receiver reply transmission).  After the end of the stream has set
`result_len = L` with `0 < L ≤ 256` and `result_off = 0`, for every sequence
of `server_on_write` calls in which the engine takes `n_i` bytes,
`0 < n_i ≤ L - result_off`: each call passes exactly the unsent tail
`result_buf[result_off .. L)`; `result_off` ends at the sum of the `n_i`, at
most `L`; the bytes taken, in order, are `result_buf[0 .. result_off)`, so
`result_buf[0 .. L)` once the offset has reached `L`; and a call issues
`wantwrite(0)` then `shutdown(1)` exactly when it brings the offset to `L`,
and nothing otherwise. -/
theorem reply_transmission (st_h : lsquic_stream_ctx) (ns : List Nat)
    (hbuf : st_h.result_buf.length = 256) (hL0 : 0 < st_h.result_len)
    (hL : st_h.result_len ≤ 256) (hoff : st_h.result_off = 0)
    (hok : accepts_ok 0 st_h.result_len ns) :
    (writes st_h ns).1.result_off = ns.sum ∧
    (writes st_h ns).1.result_off ≤ st_h.result_len ∧
    ((writes st_h ns).2.map WriteStep.accepted).flatten = st_h.result_buf.take ns.sum ∧
    (ns.sum = st_h.result_len →
      ((writes st_h ns).2.map WriteStep.accepted).flatten =
        st_h.result_buf.take st_h.result_len) ∧
    ∀ e ∈ (writes st_h ns).2,
      e.offered = some ((st_h.result_buf.drop e.off).take (st_h.result_len - e.off)) ∧
      0 < e.accepted.length ∧ e.off + e.accepted.length ≤ st_h.result_len ∧
      e.calls = if e.off + e.accepted.length = st_h.result_len then
        [EngineCall.wantwrite 0, EngineCall.shutdown 1] else [] := by
  obtain ⟨a, b, c, d⟩ := writes_spec ns st_h hbuf hL (by omega) (by rw [hoff]; exact hok)
  rw [hoff] at a b c
  rw [Nat.zero_add] at a b
  rw [List.drop_zero] at c
  refine ⟨by rw [a], by rw [a]; exact b, c, fun hs => by rw [c, hs], d⟩

/-- Witness for C13: a result of 47 bytes sent in pieces of 10, 30 and 7 bytes. -/
theorem reply_transmission_witness :
    (writes { (server_on_new_stream ⟨0, 0⟩).1 with result_len := 47 } [10, 30, 7]).1.result_off
      = 47 ∧
    (writes { (server_on_new_stream ⟨0, 0⟩).1 with result_len := 47 } [10, 30, 7]).2.map
      WriteStep.calls = [[], [], [EngineCall.wantwrite 0, EngineCall.shutdown 1]] :=
  have h := reply_transmission { (server_on_new_stream ⟨0, 0⟩).1 with result_len := 47 }
    [10, 30, 7] (List.length_replicate _ _) (by decide) (by decide) rfl
    (by simp [accepts_ok])
  ⟨h.1.trans (by decide), by decide⟩

end SpeedServer

namespace SpeedServer

/-! ## The report anchor of the server -/

end SpeedServer

namespace SpeedServer

end SpeedServer

/-! ## When a stream is closed -/

namespace SpeedServer

theorem server_on_write_neg (st_h : lsquic_stream_ctx) (nw : Int) (h : ¬ 0 < nw) :
    server_on_write st_h nw = (st_h, ⟨[EngineCall.stream_close], [LogLine.write_error]⟩) := by
  unfold server_on_write
  rw [if_neg (by omega)]

theorem server_on_write_pos_calls (st_h : lsquic_stream_ctx) (nw : Int) (h : 0 < nw) :
    (server_on_write st_h nw).2.calls = [] ∨
      (server_on_write st_h nw).2.calls = [EngineCall.wantwrite 0, EngineCall.shutdown 1] := by
  unfold server_on_write
  rw [if_pos (by omega)]
  dsimp only
  split_ifs
  · exact Or.inr rfl
  · exact Or.inl rfl

theorem server_on_read_calls (st_h : lsquic_stream_ctx) (nr : Int) (now : timeval)
    (ft : FloatText) :
    (0 < nr ∧ (server_on_read st_h nr now ft).2.calls = []) ∨
    (nr = 0 ∧ (server_on_read st_h nr now ft).2.calls =
      [EngineCall.wantread 0, EngineCall.wantwrite 1]) ∨
    (nr < 0 ∧ server_on_read st_h nr now ft =
      (st_h, ⟨[EngineCall.stream_close], [LogLine.read_error]⟩)) := by
  rcases lt_trichotomy nr 0 with h | h | h
  · refine Or.inr (Or.inr ⟨h, ?_⟩)
    unfold server_on_read
    rw [if_neg (by omega), if_neg (by omega)]
  · subst h
    exact Or.inr (Or.inl ⟨rfl, rfl⟩)
  · exact Or.inl ⟨h, (server_on_read_pos st_h nr now ft h).2.2.2.2.2⟩

end SpeedServer

namespace SpeedClient

theorem client_on_write_calls (lr : Nat) (st_h : lsquic_stream_ctx) (w : Writef)
    (now : timeval) :
    (w.nw < 0 ∧ client_on_write lr st_h w now =
      (lr, run_pulls st_h w.pulls, ⟨[EngineCall.stream_close], [LogLine.write_error]⟩)) ∨
    (0 ≤ w.nw ∧ ((client_on_write lr st_h w now).2.2.calls = [] ∨
      (client_on_write lr st_h w now).2.2.calls =
        [EngineCall.wantwrite 0, EngineCall.shutdown 1, EngineCall.wantread 1])) := by
  by_cases h : w.nw < 0
  · refine Or.inl ⟨h, ?_⟩
    unfold client_on_write
    dsimp only
    rw [if_pos h]
  · refine Or.inr ⟨by omega, ?_⟩
    unfold client_on_write
    dsimp only
    rw [if_neg h]
    by_cases hc : (run_pulls st_h w.pulls).bytes_sent ≥ (run_pulls st_h w.pulls).bytes_to_send
    · rw [if_pos hc]; exact Or.inr rfl
    · rw [if_neg hc]; exact Or.inl rfl

theorem client_on_read_calls (st_h : lsquic_stream_ctx) (r : StreamRead)
    (p : lsquic_stream_ctx × Out) (h : client_on_read st_h r = some p) :
    (0 < r.nr ∧ p.2.calls = []) ∨
    (r.nr = 0 ∧ p.2.calls = [EngineCall.shutdown 0, EngineCall.conn_close] ∧ p.1 = st_h) ∨
    (r.nr < 0 ∧ p = (st_h, ⟨[EngineCall.stream_close], [LogLine.read_error]⟩)) := by
  unfold client_on_read at h
  dsimp only at h
  rcases lt_trichotomy r.nr 0 with hn | hn | hn
  · rw [if_neg (by omega), if_neg (by omega)] at h
    exact Or.inr (Or.inr ⟨hn, (Option.some.inj h).symm⟩)
  · rw [if_neg (by omega), if_pos hn] at h
    have hp := (Option.some.inj h).symm
    exact Or.inr (Or.inl ⟨hn, by rw [hp], by rw [hp]⟩)
  · rw [if_pos hn] at h
    refine Or.inl ⟨hn, ?_⟩
    split_ifs at h
    · split at h
      · exact absurd h (by simp)
      · split at h
        · exact absurd h (by simp)
        · rw [← Option.some.inj h]
    · rw [← Option.some.inj h]

end SpeedClient

/-- Counterexample for C14.  A `lsquic_stream_write` that accepts zero bytes
makes `server_on_write` close the stream; and a `lsquic_stream_writef` that
pulls 100 bytes through the reader and then fails leaves `bytes_sent` changed
on the error path of `client_on_write`. -/
theorem close_without_negative_return :
    (SpeedServer.server_on_write
      { (SpeedServer.server_on_new_stream ⟨0, 0⟩).1 with result_len := 47 } 0).2.calls =
      [EngineCall.stream_close] ∧
    (SpeedClient.client_on_write 0 (SpeedClient.new_stream_ctx 1000 ⟨0, 0⟩) ⟨[100], -1⟩
      ⟨1, 0⟩).2.2.calls = [EngineCall.stream_close] ∧
    (SpeedClient.client_on_write 0 (SpeedClient.new_stream_ctx 1000 ⟨0, 0⟩) ⟨[100], -1⟩
      ⟨1, 0⟩).2.1.bytes_sent = 100 ∧
    (SpeedClient.new_stream_ctx 1000 ⟨0, 0⟩).bytes_sent = 0 := by
  decide

/-- C14 as amended.  `client_on_write`, `client_on_read` and `server_on_read`
close the stream if and only if the engine call returned a negative value;
`server_on_write` closes it on a negative return and does not on a positive
one.  On a negative return each callback issues the stream close and no other
engine call, and changes nothing itself: the receiver context, the reply
buffer of the sender and the report anchor are as before, and the sender
context is as the reader calls made by the failing engine call left it. -/
theorem close_on_error (lr : Nat) (cst : SpeedClient.lsquic_stream_ctx) (w : SpeedClient.Writef)
    (r : SpeedClient.StreamRead) (sst : SpeedServer.lsquic_stream_ctx) (nr nw : Int)
    (now : timeval) (ft : SpeedServer.FloatText) :
    (EngineCall.stream_close ∈ (SpeedClient.client_on_write lr cst w now).2.2.calls ↔ w.nw < 0) ∧
    (∀ p, SpeedClient.client_on_read cst r = some p →
      (EngineCall.stream_close ∈ p.2.calls ↔ r.nr < 0)) ∧
    (EngineCall.stream_close ∈ (SpeedServer.server_on_read sst nr now ft).2.calls ↔ nr < 0) ∧
    (nw < 0 → EngineCall.stream_close ∈ (SpeedServer.server_on_write sst nw).2.calls) ∧
    (0 < nw → EngineCall.stream_close ∉ (SpeedServer.server_on_write sst nw).2.calls) ∧
    (w.nw < 0 → SpeedClient.client_on_write lr cst w now =
      (lr, SpeedClient.run_pulls cst w.pulls,
        ⟨[EngineCall.stream_close], [SpeedClient.LogLine.write_error]⟩)) ∧
    (r.nr < 0 → SpeedClient.client_on_read cst r =
      some (cst, ⟨[EngineCall.stream_close], [SpeedClient.LogLine.read_error]⟩)) ∧
    (nr < 0 → SpeedServer.server_on_read sst nr now ft =
      (sst, ⟨[EngineCall.stream_close], [SpeedServer.LogLine.read_error]⟩)) ∧
    (nw < 0 → SpeedServer.server_on_write sst nw =
      (sst, ⟨[EngineCall.stream_close], [SpeedServer.LogLine.write_error]⟩)) := by
  refine ⟨?_, ?_, ?_, ?_, ?_, ?_, ?_, ?_, ?_⟩
  · rcases SpeedClient.client_on_write_calls lr cst w now with ⟨h, e⟩ | ⟨h, e | e⟩
    · rw [e]; simp [h]
    · rw [e]; simp; omega
    · rw [e]; simp; omega
  · intro p hp
    rcases SpeedClient.client_on_read_calls cst r p hp with ⟨h, e⟩ | ⟨h, e, -⟩ | ⟨h, e⟩
    · rw [e]; simp; omega
    · rw [e]; simp; omega
    · rw [e]; simp [h]
  · rcases SpeedServer.server_on_read_calls sst nr now ft with ⟨h, e⟩ | ⟨h, e⟩ | ⟨h, e⟩
    · rw [e]; simp; omega
    · rw [e]; simp; omega
    · rw [e]; simp [h]
  · intro h
    rw [SpeedServer.server_on_write_neg sst nw (by omega)]
    simp
  · intro h
    rcases SpeedServer.server_on_write_pos_calls sst nw h with e | e
    · rw [e]; simp
    · rw [e]; simp
  · intro h
    rcases SpeedClient.client_on_write_calls lr cst w now with ⟨-, e⟩ | ⟨h2, -⟩
    · exact e
    · omega
  · intro h
    cases r with
    | data bytes => simp [SpeedClient.StreamRead.nr] at h; omega
    | error => rfl
  · intro h
    rcases SpeedServer.server_on_read_calls sst nr now ft with ⟨h2, -⟩ | ⟨h2, -⟩ | ⟨-, e⟩
    · omega
    · omega
    · exact e
  · intro h
    exact SpeedServer.server_on_write_neg sst nw (by omega)

/-- Witness for C14 as amended: the four callbacks at a return value of `-1`. -/
theorem close_on_error_witness :
    SpeedClient.client_on_write 7 (SpeedClient.new_stream_ctx 1000 ⟨0, 0⟩) ⟨[], -1⟩ ⟨1, 0⟩ =
      (7, SpeedClient.run_pulls (SpeedClient.new_stream_ctx 1000 ⟨0, 0⟩) [],
        ⟨[EngineCall.stream_close], [SpeedClient.LogLine.write_error]⟩) ∧
    SpeedServer.server_on_write (SpeedServer.server_on_new_stream ⟨0, 0⟩).1 (-1) =
      ((SpeedServer.server_on_new_stream ⟨0, 0⟩).1,
        ⟨[EngineCall.stream_close], [SpeedServer.LogLine.write_error]⟩) :=
  have h := close_on_error 7 (SpeedClient.new_stream_ctx 1000 ⟨0, 0⟩) ⟨[], -1⟩
    SpeedClient.StreamRead.error (SpeedServer.server_on_new_stream ⟨0, 0⟩).1 (-1) (-1) ⟨1, 0⟩
    ⟨[], []⟩
  ⟨h.2.2.2.2.2.1 (by decide), h.2.2.2.2.2.2.2.2 (by decide)⟩

/-! ## Interest flags -/

theorem flag_states_append (f : Interest) (a b : List EngineCall) :
    flag_states f (a ++ b) = flag_states f a ++ flag_states (a.foldl apply_call f) b := by
  induction a generalizing f with
  | nil => rfl
  | cons c cs ih =>
    show apply_call f c :: flag_states (apply_call f c) (cs ++ b) = _
    rw [ih]
    rfl

/-- The engine calls of one client callback keep the two flags from being set
together and never switch write-interest on. -/
theorem client_segment (f : Interest) (cs : List EngineCall)
    (hcs : cs = [] ∨ cs = [EngineCall.stream_close] ∨
      cs = [EngineCall.wantwrite 0, EngineCall.shutdown 1, EngineCall.wantread 1] ∨
      cs = [EngineCall.shutdown 0, EngineCall.conn_close])
    (hf : ¬ (f.read = true ∧ f.write = true)) :
    (∀ g ∈ flag_states f cs, ¬ (g.read = true ∧ g.write = true)) ∧
    ¬ ((cs.foldl apply_call f).read = true ∧ (cs.foldl apply_call f).write = true) ∧
    (∀ c ∈ cs, ∀ k, c = EngineCall.wantwrite k → k = 0) := by
  obtain ⟨r, w⟩ := f
  rcases hcs with rfl | rfl | rfl | rfl <;> cases r <;> cases w <;>
    simp [flag_states, apply_call] at hf ⊢

/-- The engine calls of one server callback keep the two flags from being set
together and never switch read-interest on. -/
theorem server_segment (f : Interest) (cs : List EngineCall)
    (hcs : cs = [] ∨ cs = [EngineCall.stream_close] ∨
      cs = [EngineCall.wantread 0, EngineCall.wantwrite 1] ∨
      cs = [EngineCall.wantwrite 0, EngineCall.shutdown 1])
    (hf : ¬ (f.read = true ∧ f.write = true)) :
    (∀ g ∈ flag_states f cs, ¬ (g.read = true ∧ g.write = true)) ∧
    ¬ ((cs.foldl apply_call f).read = true ∧ (cs.foldl apply_call f).write = true) ∧
    (∀ c ∈ cs, ∀ k, c = EngineCall.wantread k → k = 0) := by
  obtain ⟨r, w⟩ := f
  rcases hcs with rfl | rfl | rfl | rfl <;> cases r <;> cases w <;>
    simp [flag_states, apply_call] at hf ⊢

namespace SpeedClient

theorem client_on_write_forms (lr : Nat) (st_h : lsquic_stream_ctx) (w : Writef) (now : timeval) :
    (client_on_write lr st_h w now).2.2.calls = [] ∨
    (client_on_write lr st_h w now).2.2.calls = [EngineCall.stream_close] ∨
    (client_on_write lr st_h w now).2.2.calls =
      [EngineCall.wantwrite 0, EngineCall.shutdown 1, EngineCall.wantread 1] ∨
    (client_on_write lr st_h w now).2.2.calls = [EngineCall.shutdown 0, EngineCall.conn_close] := by
  rcases client_on_write_calls lr st_h w now with ⟨-, e⟩ | ⟨-, e | e⟩
  · rw [e]; exact Or.inr (Or.inl rfl)
  · exact Or.inl e
  · exact Or.inr (Or.inr (Or.inl e))

theorem client_on_read_forms (st_h : lsquic_stream_ctx) (r : StreamRead)
    (p : lsquic_stream_ctx × Out) (h : client_on_read st_h r = some p) :
    p.2.calls = [] ∨ p.2.calls = [EngineCall.stream_close] ∨
    p.2.calls = [EngineCall.wantwrite 0, EngineCall.shutdown 1, EngineCall.wantread 1] ∨
    p.2.calls = [EngineCall.shutdown 0, EngineCall.conn_close] := by
  rcases client_on_read_calls st_h r p h with ⟨-, e⟩ | ⟨-, e, -⟩ | ⟨-, e⟩
  · exact Or.inl e
  · exact Or.inr (Or.inr (Or.inr e))
  · rw [e]; exact Or.inr (Or.inl rfl)

/-- Along any sequence of callbacks of a client stream the two flags are never
set together and write-interest is never switched on. -/
theorem client_stream_flags (es : List ClientEvent) (s : Sender) (f : Interest)
    (hf : ¬ (f.read = true ∧ f.write = true)) :
    (∀ g ∈ flag_states f (client_stream_calls s es), ¬ (g.read = true ∧ g.write = true)) ∧
    (∀ c ∈ client_stream_calls s es, ∀ k, c = EngineCall.wantwrite k → k = 0) := by
  induction es generalizing s f with
  | nil =>
    constructor
    · intro g hg; simp [client_stream_calls, flag_states] at hg
    · intro c hc; simp [client_stream_calls] at hc
  | cons e es ih =>
    cases e with
    | on_write w now =>
      obtain ⟨a, b, c⟩ := client_segment f _ (client_on_write_forms s.last_report s.ctx w now) hf
      obtain ⟨a2, c2⟩ := ih ⟨(client_on_write s.last_report s.ctx w now).1,
        (client_on_write s.last_report s.ctx w now).2.1⟩ _ b
      simp only [client_stream_calls]
      constructor
      · intro g hg
        rw [flag_states_append] at hg
        rcases List.mem_append.mp hg with h1 | h1
        · exact a g h1
        · exact a2 g h1
      · intro x hx
        rcases List.mem_append.mp hx with h1 | h1
        · exact c x h1
        · exact c2 x h1
    | on_read r =>
      simp only [client_stream_calls]
      cases hr : client_on_read s.ctx r with
      | none =>
        constructor
        · intro g hg; simp [flag_states] at hg
        · intro c hc; simp at hc
      | some p =>
        obtain ⟨a, b, c⟩ := client_segment f _ (client_on_read_forms s.ctx r p hr) hf
        obtain ⟨a2, c2⟩ := ih ⟨s.last_report, p.1⟩ _ b
        constructor
        · intro g hg
          rw [flag_states_append] at hg
          rcases List.mem_append.mp hg with h1 | h1
          · exact a g h1
          · exact a2 g h1
        · intro x hx
          rcases List.mem_append.mp hx with h1 | h1
          · exact c x h1
          · exact c2 x h1

end SpeedClient

namespace SpeedServer

theorem server_on_read_forms (st_h : lsquic_stream_ctx) (nr : Int) (now : timeval)
    (ft : FloatText) :
    (server_on_read st_h nr now ft).2.calls = [] ∨
    (server_on_read st_h nr now ft).2.calls = [EngineCall.stream_close] ∨
    (server_on_read st_h nr now ft).2.calls = [EngineCall.wantread 0, EngineCall.wantwrite 1] ∨
    (server_on_read st_h nr now ft).2.calls = [EngineCall.wantwrite 0, EngineCall.shutdown 1] := by
  rcases server_on_read_calls st_h nr now ft with ⟨-, e⟩ | ⟨-, e⟩ | ⟨-, e⟩
  · exact Or.inl e
  · exact Or.inr (Or.inr (Or.inl e))
  · rw [e]; exact Or.inr (Or.inl rfl)

theorem server_on_write_forms (st_h : lsquic_stream_ctx) (nw : Int) :
    (server_on_write st_h nw).2.calls = [] ∨
    (server_on_write st_h nw).2.calls = [EngineCall.stream_close] ∨
    (server_on_write st_h nw).2.calls = [EngineCall.wantread 0, EngineCall.wantwrite 1] ∨
    (server_on_write st_h nw).2.calls = [EngineCall.wantwrite 0, EngineCall.shutdown 1] := by
  by_cases h : 0 < nw
  · rcases server_on_write_pos_calls st_h nw h with e | e
    · exact Or.inl e
    · exact Or.inr (Or.inr (Or.inr e))
  · rw [server_on_write_neg st_h nw h]; exact Or.inr (Or.inl rfl)

/-- Along any sequence of callbacks of a server stream the two flags are never
set together and read-interest is never switched on. -/
theorem server_stream_flags (es : List ServerEvent) (st_h : lsquic_stream_ctx) (f : Interest)
    (hf : ¬ (f.read = true ∧ f.write = true)) :
    (∀ g ∈ flag_states f (server_stream_calls st_h es), ¬ (g.read = true ∧ g.write = true)) ∧
    (∀ c ∈ server_stream_calls st_h es, ∀ k, c = EngineCall.wantread k → k = 0) := by
  induction es generalizing st_h f with
  | nil =>
    constructor
    · intro g hg; simp [server_stream_calls, flag_states] at hg
    · intro c hc; simp [server_stream_calls] at hc
  | cons e es ih =>
    cases e with
    | on_read nr now ft =>
      obtain ⟨a, b, c⟩ := server_segment f _ (server_on_read_forms st_h nr now ft) hf
      obtain ⟨a2, c2⟩ := ih (server_on_read st_h nr now ft).1 _ b
      simp only [server_stream_calls]
      constructor
      · intro g hg
        rw [flag_states_append] at hg
        rcases List.mem_append.mp hg with h1 | h1
        · exact a g h1
        · exact a2 g h1
      · intro x hx
        rcases List.mem_append.mp hx with h1 | h1
        · exact c x h1
        · exact c2 x h1
    | on_write nw =>
      obtain ⟨a, b, c⟩ := server_segment f _ (server_on_write_forms st_h nw) hf
      obtain ⟨a2, c2⟩ := ih (server_on_write st_h nw).1 _ b
      simp only [server_stream_calls]
      constructor
      · intro g hg
        rw [flag_states_append] at hg
        rcases List.mem_append.mp hg with h1 | h1
        · exact a g h1
        · exact a2 g h1
      · intro x hx
        rcases List.mem_append.mp hx with h1 | h1
        · exact c x h1
        · exact c2 x h1

end SpeedServer

/-- C17 (interest flags are serialized).  With the read-interest and
write-interest of a stream as booleans, both clear when the stream is made and
updated by the `wantread` and `wantwrite` calls of its callbacks: along any
sequence of callbacks of a client stream, and of a server stream, the two
flags are never set together, not even between two calls of one callback.
The sender's `client_on_write` issues nothing, or a stream close, or
`wantwrite(0)`, `shutdown(1)`, `wantread(1)` in this order, and no client
callback ever switches write-interest on again; the receiver's
`server_on_read` issues nothing, or a stream close, or `wantread(0)`,
`wantwrite(1)` in this order, and no server callback ever switches
read-interest on again. -/
theorem interest_serialized (T lr : Nat) (t0 t1 : timeval)
    (es : List SpeedClient.ClientEvent) (ses : List SpeedServer.ServerEvent) :
    (∀ g ∈ flag_states ⟨false, false⟩
        ((SpeedClient.client_on_new_stream T true t0).2 ++
          SpeedClient.client_stream_calls (SpeedClient.fresh T lr t0) es),
      ¬ (g.read = true ∧ g.write = true)) ∧
    (∀ c ∈ SpeedClient.client_stream_calls (SpeedClient.fresh T lr t0) es,
      ∀ k, c = EngineCall.wantwrite k → k = 0) ∧
    (∀ g ∈ flag_states ⟨false, false⟩
        ((SpeedServer.server_on_new_stream t1).2 ++
          SpeedServer.server_stream_calls (SpeedServer.server_on_new_stream t1).1 ses),
      ¬ (g.read = true ∧ g.write = true)) ∧
    (∀ c ∈ SpeedServer.server_stream_calls (SpeedServer.server_on_new_stream t1).1 ses,
      ∀ k, c = EngineCall.wantread k → k = 0) ∧
    (∀ (a : Nat) (st_h : SpeedClient.lsquic_stream_ctx) (w : SpeedClient.Writef) (now : timeval),
      (SpeedClient.client_on_write a st_h w now).2.2.calls = [] ∨
      (SpeedClient.client_on_write a st_h w now).2.2.calls = [EngineCall.stream_close] ∨
      (SpeedClient.client_on_write a st_h w now).2.2.calls =
        [EngineCall.wantwrite 0, EngineCall.shutdown 1, EngineCall.wantread 1]) ∧
    (∀ (st_h : SpeedServer.lsquic_stream_ctx) (nr : Int) (now : timeval)
      (ft : SpeedServer.FloatText),
      (SpeedServer.server_on_read st_h nr now ft).2.calls = [] ∨
      (SpeedServer.server_on_read st_h nr now ft).2.calls = [EngineCall.stream_close] ∨
      (SpeedServer.server_on_read st_h nr now ft).2.calls =
        [EngineCall.wantread 0, EngineCall.wantwrite 1]) := by
  have hc := SpeedClient.client_stream_flags es (SpeedClient.fresh T lr t0) ⟨false, true⟩
    (by decide)
  have hs := SpeedServer.server_stream_flags ses (SpeedServer.server_on_new_stream t1).1
    ⟨true, false⟩ (by decide)
  refine ⟨?_, hc.2, ?_, hs.2, ?_, ?_⟩
  · intro g hg
    rw [flag_states_append] at hg
    rcases List.mem_append.mp hg with h1 | h1
    · have : g = ⟨false, true⟩ := by
        simpa [SpeedClient.client_on_new_stream, flag_states, apply_call] using h1
      rw [this]; decide
    · exact hc.1 g h1
  · intro g hg
    rw [flag_states_append] at hg
    rcases List.mem_append.mp hg with h1 | h1
    · have : g = ⟨true, false⟩ := by
        simpa [SpeedServer.server_on_new_stream, flag_states, apply_call] using h1
      rw [this]; decide
    · exact hs.1 g h1
  · intro a st_h w now
    rcases SpeedClient.client_on_write_calls a st_h w now with ⟨-, e⟩ | ⟨-, e | e⟩
    · rw [e]; exact Or.inr (Or.inl rfl)
    · exact Or.inl e
    · exact Or.inr (Or.inr e)
  · intro st_h nr now ft
    rcases SpeedServer.server_on_read_calls st_h nr now ft with ⟨-, e⟩ | ⟨-, e⟩ | ⟨-, e⟩
    · exact Or.inl e
    · exact Or.inr (Or.inr e)
    · rw [e]; exact Or.inr (Or.inl rfl)
